import Mathlib

/-!
Verification development for the quadlet lifecycle engine
(install / list / remove) of this repository.

The Go source (pkg/domain/infra/abi quadlet engine) is embedded shallowly:
  * the filesystem is an explicit association list from absolute paths to
    entries (regular files with contents, or directories);
  * all external collaborators (systemd D-Bus connection, the unit-file
    parser, the artifact store, HTTP, temp-file naming, the quadlet
    generator binary) are an explicit environment record of pure functions;
  * Go errors are modelled by their message strings;
  * the report types from the entities package (not part of the shown
    source) are modelled from the spec where noted.
Line numbers in comments refer to the engine source file.
-/

set_option autoImplicit false

deriving instance DecidableEq for Except

namespace Quadlet

/-- Go `error` values, modelled as their message strings. -/
abbrev GoError := String

/-- Quote a string, as Go `%q` formatting does (escape details elided). -/
def qq (s : String) : String := "\"" ++ s ++ "\""

/-! ### Association maps (Go `map[string]V`, insertion-ordered) -/

/-- First value bound to key `k`. -/
def mapFind {β : Type} : List (String × β) → String → Option β
  | [], _ => none
  | (k', v) :: rest, k => if k' = k then some v else mapFind rest k

/-- Go map assignment `m[k] = v`: overwrite in place or append. -/
def mapSet {β : Type} : List (String × β) → String → β → List (String × β)
  | [], k, v => [(k, v)]
  | (k', v') :: rest, k, v =>
    if k' = k then (k, v) :: rest else (k', v') :: mapSet rest k v

/-- Go `delete(m, k)`. -/
def mapDel {β : Type} : List (String × β) → String → List (String × β)
  | [], _ => []
  | (k', v') :: rest, q => if k' = q then mapDel rest q else (k', v') :: mapDel rest q

/-- Go two-valued map read, with the zero value as default. -/
def mapFindD {β : Type} (m : List (String × β)) (k : String) (d : β) : β :=
  (mapFind m k).getD d

/-- Key-membership test, `_, ok := m[k]`. -/
def mapHasKey {β : Type} (m : List (String × β)) (k : String) : Bool :=
  (mapFind m k).isSome

/-! ### Go path/string helpers (`path/filepath`, `strings`)

These are implemented by structural recursion over the character list of
a `String`, so that every concrete run reduces inside the kernel. -/

/-- `strings.HasPrefix`. -/
def strStarts (s pre : String) : Bool := pre.data.isPrefixOf s.data

/-- Drop the first `n` characters. -/
def strDropChars (s : String) (n : Nat) : String := ⟨s.data.drop n⟩

/-- Does the string contain the character? -/
def strHasChar (s : String) (c : Char) : Bool := s.data.contains c

/-- Split a character list on a separator character (like
`strings.Split` with a one-character separator). -/
def chSplit (sep : Char) : List Char → List (List Char)
  | [] => [[]]
  | c :: rest =>
    let r := chSplit sep rest
    if c = sep then [] :: r
    else
      match r with
      | [] => [[c]]
      | g :: gs => (c :: g) :: gs

/-- Split a string on a separator character. -/
def strSplitCh (s : String) (sep : Char) : List String :=
  (chSplit sep s.data).map (fun cs => ⟨cs⟩)

/-- Trailing-character strip (for `filepath.Base`). -/
def strDropRightCh (s : String) (c : Char) : String :=
  ⟨(s.data.reverse.dropWhile (fun x => x = c)).reverse⟩

/-- `filepath.Join(dir, name)` for the already-clean inputs this engine
builds: concatenation with a single separator.  When `name` is absolute the
joined (and cleaned) result simply concatenates, e.g.
`Join("/a/b", "/a/b/f") = "/a/b/a/b/f"`. -/
def goJoin (dir name : String) : String :=
  if strStarts name "/" then dir ++ name else dir ++ "/" ++ name

/-- `filepath.Base`. -/
def goBase (s : String) : String :=
  if s = "" then "."
  else
    let t := strDropRightCh s '/'
    if t = "" then "/" else (strSplitCh t '/').getLastD t

/-- `filepath.Ext`: suffix of the last component from its final dot. -/
def goExt (s : String) : String :=
  let base := (strSplitCh s '/').getLastD s
  let ps := strSplitCh base '.'
  if ps.length ≤ 1 then "" else "." ++ ps.getLastD ""

/-- One step of `filepath.Clean`'s component processing. -/
def goCleanStep (abs : Bool) (stack : List String) (c : String) : List String :=
  if c = ".." then
    match stack with
    | [] => if abs then [] else [".."]
    | _ :: _ => if stack.getLastD "" = ".." then stack ++ [".."] else stack.dropLast
  else stack ++ [c]

/-- `filepath.Clean`. -/
def goClean (p : String) : String :=
  let abs := strStarts p "/"
  let comps := (strSplitCh p '/').filter (fun c => c ≠ "" && c ≠ ".")
  let cs := comps.foldl (goCleanStep abs) []
  if abs then "/" ++ String.intercalate "/" cs
  else if cs.isEmpty then "." else String.intercalate "/" cs

/-- `strings.TrimPrefix`. -/
def goTrimPre (s pre : String) : String :=
  if strStarts s pre then strDropChars s pre.data.length else s

/-- Scan for the first occurrence of `sep`, returning the pieces before
and after it. -/
def goCutAux (sep : List Char) : List Char → Option (List Char × List Char)
  | [] => if sep = [] then some ([], []) else none
  | c :: rest =>
    if sep.isPrefixOf (c :: rest) then some ([], (c :: rest).drop sep.length)
    else
      match goCutAux sep rest with
      | none => none
      | some (b, a) => some (c :: b, a)

/-- `strings.Cut(s, sep)`: split around the first occurrence of `sep`. -/
def goCut (s sep : String) : String × String × Bool :=
  match goCutAux sep.data s.data with
  | some (b, a) => (⟨b⟩, ⟨a⟩, true)
  | none => (s, "", false)

/-! ### Filesystem model -/

/-- A directory entry: a regular file with its byte contents, or a
directory. -/
inductive FsEntry : Type where
  | file (contents : String)
  | dir
  deriving Repr, DecidableEq

/-- The filesystem: absolute path to entry.  `os.Stat` is `mapFind`. -/
abbrev Fs := List (String × FsEntry)

/-- `os.WriteFile` (always succeeds in this model; write errors other than
the ones the claims concern are not modelled). -/
def fsWrite (fs : Fs) (p : String) (c : String) : Fs :=
  mapSet fs p (FsEntry.file c)

/-- `os.Remove`, quietly: removing a missing path is the identity (the
engine treats `fs.ErrNotExist` from `os.Remove` as success). -/
def fsDel (fs : Fs) (p : String) : Fs :=
  mapDel fs p

/-- `os.ReadDir dir`: entries whose path is directly under `dir`
(basename, entry), in filesystem order. -/
def readDirNames (fs : Fs) (dir : String) : List (String × FsEntry) :=
  fs.filterMap (fun e =>
    let pre := dir ++ "/"
    if strStarts e.1 pre then
      let rest := strDropChars e.1 pre.data.length
      if rest ≠ "" && !(strHasChar rest '/') then some (rest, e.2) else none
    else none)

/-! ### External data types -/

/-- One unit status returned by `ListUnitsByNamesContext`. -/
structure UnitStatus : Type where
  Name : String
  LoadState : String
  ActiveState : String
  SubState : String
  deriving Repr, DecidableEq

/-- Modelled from the spec: `entities.ListQuadlet`, the ListEntry
`{name, path, status}` (status a "<ActiveState>/<SubState>" pair, the
sentinel "Not loaded", or a parse-error text). -/
structure ListQuadlet : Type where
  Name : String
  Path : String
  Status : String
  deriving Repr, DecidableEq

/-- Modelled from the spec: `entities.QuadletInstallReport`, "two mappings
keyed by the original source reference — installed: ref → finalPath and
errors: ref → error".  Mappings are modelled initialized; the Go-level
nil-map behaviour of the `new`-allocated report is treated separately
below. -/
structure QuadletInstallReport : Type where
  InstalledQuadlets : List (String × String) := []
  QuadletErrors : List (String × GoError) := []
  deriving Repr, DecidableEq

/-- Modelled from the spec: `entities.QuadletRemoveReport`, "removed:
ordered sequence of names (order = processing order) and errors:
name → error". -/
structure QuadletRemoveReport : Type where
  Removed : List String := []
  Errors : List (String × GoError) := []
  deriving Repr, DecidableEq

/-- `entities.QuadletInstallOptions`. -/
structure QuadletInstallOptions : Type where
  ReloadSystemd : Bool
  deriving Repr, DecidableEq

/-- `entities.QuadletRemoveOptions` (the CLI also binds `ReloadSystemd`,
which the engine does not consult). -/
structure QuadletRemoveOptions : Type where
  Force : Bool := false
  All : Bool := false
  Ignore : Bool := false
  ReloadSystemd : Bool := false
  deriving Repr, DecidableEq

/-- `entities.QuadletListOptions`. -/
structure QuadletListOptions : Type where
  Filters : List String := []

/-- The environment of external collaborators, as deterministic pure
functions.  `connect` is the systemd D-Bus connection attempt; `unitDirs`
is `systemdquadlet.GetUnitDirs` for the current privilege mode;
`installDir`/`installDirOK`/`generatorOK` abstract the install-directory
resolution and generator checks (source lines 36-96, not the subject of
any claim); `parseUnitFile` returns an opaque parsed-unit handle;
`createTemp` names the n-th temporary file of a call; `httpGet` returns
transport error, or status code with body-read result; `stopResult` is
the value received on the stop completion channel. -/
structure Env : Type where
  connect : Except GoError Unit
  unitDirs : List String
  installDir : String
  generatorOK : Except GoError Unit
  installDirOK : Except GoError Unit
  parseUnitFile : String → Except GoError String
  getUnitServiceName : String → Except GoError String
  matchPattern : String → String → Bool
  getLayers : String → Except GoError (List (String × String))
  createTemp : Nat → Except GoError String
  httpGet : String → Except GoError (Nat × Except GoError String)
  listUnits : List String → Except GoError (List UnitStatus)
  stopUnit : String → Except GoError Unit
  stopResult : String → String
  reload : Except GoError Unit
  validateOK : Bool

/-! ### Shared helpers of the engine (source lines 241-275, 394-413) -/

/-- Modelled from the spec: `systemdquadlet.IsExtSupported` and its fixed
allow-list of quadlet file extensions ("container/pod/network/volume/
image-unit-style extensions", enforced identically at install, list and
remove time). -/
def supportedExtensions : List String :=
  [".container", ".volume", ".kube", ".network", ".image", ".build", ".pod"]

/-- Modelled from the spec: extension membership in the fixed allow-list. -/
def isExtSupported (name : String) : Bool :=
  supportedExtensions.contains (goExt name)

/-- `getAllQuadletPaths` (lines 242-261): scan every unit directory,
keep non-directory entries with a supported extension, return full paths.
An unreadable directory contributes no entries. -/
def getAllQuadletPaths (dirs : List String) (fs : Fs) : List String :=
  dirs.foldl (fun acc dir =>
    acc ++ ((readDirNames fs dir).filter
      (fun d => isExtSupported d.1 && !(d.2 == FsEntry.dir))).map
      (fun d => goJoin dir d.1)) []

/-- `getQuadletServiceName` (lines 264-275): parse the unit file, derive
the service name, append ".service"; wrap failures. -/
def getQuadletServiceName (env : Env) (quadletPath : String) : Except GoError String :=
  match env.parseUnitFile quadletPath with
  | .error e => .error ("parsing Quadlet file " ++ quadletPath ++ ": " ++ e)
  | .ok unit =>
    match env.getUnitServiceName unit with
    | .error e =>
      .error ("generating service name for Quadlet " ++ goBase quadletPath ++ ": " ++ e)
    | .ok s => .ok (s ++ ".service")

/-- Inner directory search of `getQuadletByName` (lines 401-412). -/
def findQuadletInDirs (fs : Fs) (name : String) : List String → Except GoError String
  | [] =>
    .error ("could not locate quadlet " ++ qq name ++
      " in any supported quadlet directory")
  | dir :: rest =>
    match mapFind fs (goJoin dir name) with
    | some _ => .ok (goJoin dir name)
    | none => findQuadletInDirs fs name rest

/-- `getQuadletByName` (lines 395-413): extension check, then join the
given name onto each unit directory in order and return the first that
exists. -/
def getQuadletByName (dirs : List String) (fs : Fs) (name : String) : Except GoError String :=
  if !isExtSupported name then
    .error (qq (goExt name) ++ " is not a supported quadlet file type")
  else findQuadletInDirs fs name dirs

/-! ### installQuadlet (source lines 201-239) -/

/-- Lines 211-214: the destination path — install directory joined with
the cleaned base name of the source, or with the suggested name when one
is given. -/
def installDest (path destName installDir : String) : String :=
  if destName = "" then goJoin installDir (goBase (goClean path))
  else goJoin installDir destName

/-- `installQuadlet`: validate the source path, compute the destination,
refuse to overwrite, check the extension, copy the bytes.  Underlying OS
error texts inside wrapped messages are elided; read/write of an existing
regular file is modelled as always succeeding. -/
def installQuadlet (fs : Fs) (path destName installDir : String) :
    Except GoError (String × Fs) :=
  match mapFind fs path with
  | none =>
    .error ("quadlet to install " ++ qq path ++ " does not exist or cannot be read")
  | some FsEntry.dir => .error ("quadlet to install " ++ qq path ++ " is not a file")
  | some (FsEntry.file contents) =>
    let finalPath := installDest path destName installDir
    match mapFind fs finalPath with
    | some _ =>
      .error ("a Quadlet with name " ++ goBase finalPath ++
        " already exists, refusing to overwrite")
    | none =>
      if !isExtSupported finalPath then
        .error (qq (goExt finalPath) ++ " is not a supported Quadlet file type")
      else .ok (finalPath, fsWrite fs finalPath contents)

/-! ### QuadletInstall (source lines 28-195) -/

/-- Mutable state of the install loop: the filesystem, the report being
populated, the temp-file counter, and the temp files whose deferred
removal runs when `QuadletInstall` returns. -/
structure InstState : Type where
  fs : Fs
  rep : QuadletInstallReport
  tmpCtr : Nat
  tmps : List String
  deriving Repr, DecidableEq

/-- Record a per-item error (`installReport.QuadletErrors[key] = e`). -/
def recordInstallErr (st : InstState) (key : String) (e : GoError) : InstState :=
  ⟨st.fs, ⟨st.rep.InstalledQuadlets, mapSet st.rep.QuadletErrors key e⟩, st.tmpCtr, st.tmps⟩

/-- Record a per-item success
(`installReport.InstalledQuadlets[key] = fp`) with the updated
filesystem. -/
def recordInstallOk (st : InstState) (key fp : String) (fs' : Fs) : InstState :=
  ⟨fs', ⟨mapSet st.rep.InstalledQuadlets key fp, st.rep.QuadletErrors⟩, st.tmpCtr, st.tmps⟩

/-- Is the reference an `oci-artifact://` reference? -/
def isOciRef (r : String) : Bool := strStarts r "oci-artifact://"

/-- Is the reference an `http://` or `https://` URL? -/
def isUrlRef (r : String) : Bool := strStarts r "http://" || strStarts r "https://"

/-- Lines 118-126: install every artifact layer, keyed by its path on
disk, in the order the layer map is iterated. -/
def artifactLayersStep (installDir : String) (st : InstState)
    (layers : List (String × String)) : InstState :=
  layers.foldl (fun st lay =>
    match installQuadlet st.fs lay.2 lay.1 installDir with
    | .error e => recordInstallErr st lay.2 e
    | .ok (fp, fs') => recordInstallOk st lay.2 fp fs') st

/-- Lines 145-156: after the GET completed at the transport level —
consume the body-read result, write the body to the temp file, and submit
the temp file for installation.  The HTTP status code (`resp.1`) is never
examined. -/
def afterGetStep (installDir ref tmp : String) (resp : Nat × Except GoError String)
    (st : InstState) : InstState :=
  match resp.2 with
  | .error e => recordInstallErr st ref ("populating temporary file: " ++ e)
  | .ok body =>
    let st1 : InstState := ⟨fsWrite st.fs tmp body, st.rep, st.tmpCtr, st.tmps⟩
    match installQuadlet st1.fs tmp "" installDir with
    | .error e => recordInstallErr st1 ref e
    | .ok (fp, fs') => recordInstallOk st1 ref fp fs'

/-- Lines 127-156: the `http://`/`https://` branch.  Create a temp file
(registering its deferred removal), then GET the URL. -/
def httpStep (env : Env) (ref : String) (st : InstState) : InstState :=
  match env.createTemp st.tmpCtr with
  | .error e =>
    recordInstallErr ⟨st.fs, st.rep, st.tmpCtr + 1, st.tmps⟩ ref
      ("unable to create temporay file to download URL " ++ ref ++ ": " ++ e)
  | .ok tmp =>
    let st1 : InstState := ⟨fsWrite st.fs tmp "", st.rep, st.tmpCtr + 1, st.tmps ++ [tmp]⟩
    match env.httpGet ref with
    | .error e =>
      recordInstallErr st1 ref ("unable to download URL " ++ ref ++ ": " ++ e)
    | .ok resp => afterGetStep env.installDir ref tmp resp st1

/-- Lines 157-164: the default (local path) branch. -/
def localStep (installDir : String) (st : InstState) (ref : String) : InstState :=
  match installQuadlet st.fs ref "" installDir with
  | .error e => recordInstallErr st ref e
  | .ok (fp, fs') => recordInstallOk st ref fp fs'

/-- Lines 106-166: one iteration of the install loop.  A layer-retrieval
failure for an `oci-artifact://` reference returns a fatal error
(`return nil, ...`, line 112) aborting the whole batch. -/
def processInstallRef (env : Env) (st : InstState) (ref : String) :
    Option GoError × InstState :=
  if isOciRef ref then
    match env.getLayers (goTrimPre ref "oci-artifact://") with
    | .error e =>
      (some ("retrieving OCI artifact " ++ goTrimPre ref "oci-artifact://" ++ ": " ++ e), st)
    | .ok layers => (none, artifactLayersStep env.installDir st layers)
  else if isUrlRef ref then (none, httpStep env ref st)
  else (none, localStep env.installDir st ref)

/-- The install loop over all given paths/URLs. -/
def installLoop (env : Env) : List String → InstState → Option GoError × InstState
  | [], st => (none, st)
  | r :: rest, st =>
    match processInstallRef env st r with
    | (some e, st') => (some e, st')
    | (none, st') => installLoop env rest st'

/-- The deferred `os.Remove` of every temp file, run at function return. -/
def cleanupTemps (tmps : List String) (fs : Fs) : Fs :=
  tmps.foldl fsDel fs

/-- Result of `QuadletInstall`: the (possibly nil) report, the returned
error, and the final filesystem. -/
structure InstallOutcome : Type where
  report : Option QuadletInstallReport
  err : Option GoError
  fs : Fs
  deriving Repr, DecidableEq

/-- `QuadletInstall` (lines 28-195): connection and generator checks,
install-directory resolution (abstracted into the environment), the
per-reference loop, the dry-run validation, and the optional reload. -/
def quadletInstall (env : Env) (opts : QuadletInstallOptions) (refs : List String)
    (fs : Fs) : InstallOutcome :=
  match env.connect with
  | .error e => ⟨none, some ("connecting to systemd dbus: " ++ e), fs⟩
  | .ok _ =>
    match env.generatorOK with
    | .error e => ⟨none, some e, fs⟩
    | .ok _ =>
      match env.installDirOK with
      | .error e => ⟨none, some e, fs⟩
      | .ok _ =>
        match installLoop env refs ⟨fs, ⟨[], []⟩, 0, []⟩ with
        | (some e, st) => ⟨none, some e, cleanupTemps st.tmps st.fs⟩
        | (none, st) =>
          let fsF := cleanupTemps st.tmps st.fs
          let validateErr : Option GoError :=
            if env.validateOK then none else some "validating Quadlet syntax failed"
          if opts.ReloadSystemd then
            match env.reload with
            | .error e => ⟨some st.rep, some ("reloading systemd: " ++ e), fsF⟩
            | .ok _ => ⟨some st.rep, validateErr, fsF⟩
          else ⟨some st.rep, validateErr, fsF⟩

/-! ### QuadletList (source lines 277-392) -/

/-- `generateQuadletFilter` (lines 279-288): only the `name` filter is
valid; it matches when the entry name matches any one of the accepted
values (`util.StringMatchRegexSlice`, modelled from the spec as "matches
any one of the given patterns" via the environment's pattern matcher). -/
def generateQuadletFilter (env : Env) (filter : String) (filterValues : List String) :
    Except GoError (ListQuadlet → Bool) :=
  if filter = "name" then
    .ok (fun q => filterValues.any (fun p => env.matchPattern q.Name p))
  else .error (filter ++ " is not a valid filter")

/-- Lines 306-312: split each `name=value` filter argument and collect the
values per filter name. -/
def buildFilterMap (acc : List (String × List String)) :
    List String → Except GoError (List (String × List String))
  | [] => .ok acc
  | f :: rest =>
    let c := goCut f "="
    if c.2.2 then
      buildFilterMap (mapSet acc c.1 (mapFindD acc c.1 [] ++ [c.2.1])) rest
    else .error ("invalid filter " ++ qq f)

/-- Lines 313-319: generate one filter function per collected filter
name. -/
def buildFilterFuncs (env : Env) :
    List (String × List String) → Except GoError (List (ListQuadlet → Bool))
  | [] => .ok []
  | (fname, vals) :: rest =>
    match generateQuadletFilter env fname vals with
    | .error e => .error e
    | .ok fn =>
      match buildFilterFuncs env rest with
      | .error e => .error e
      | .ok fns => .ok (fn :: fns)

/-- Lines 325-339: build the per-file reports.  A file whose service name
cannot be derived becomes a finished report whose status is the error
text; the rest go into the pending map keyed by service name (later
entries overwrite earlier ones with the same service name) and contribute
to the batch query list.  Result: (finished reports, pending map, service
names to query). -/
def listBuildPreLoop (env : Env) :
    List String → List ListQuadlet × List (String × ListQuadlet) × List String →
      List ListQuadlet × List (String × ListQuadlet) × List String
  | [], acc => acc
  | path :: rest, acc =>
    match getQuadletServiceName env path with
    | .error e =>
      listBuildPreLoop env rest (acc.1 ++ [⟨goBase path, path, e⟩], acc.2.1, acc.2.2)
    | .ok s =>
      listBuildPreLoop env rest (acc.1, mapSet acc.2.1 s ⟨goBase path, path, ""⟩, acc.2.2 ++ [s])

/-- The phase of lines 325-339 started from empty accumulators. -/
def listBuildPre (env : Env) (paths : List String) :
    List ListQuadlet × List (String × ListQuadlet) × List String :=
  listBuildPreLoop env paths ([], [], [])

/-- Lines 349-369: reconcile the batch query response.  Each returned
unit takes the pending report for its name (the zero report if none),
yields "Not loaded" when `LoadState != "loaded"` and
"<ActiveState>/<SubState>" otherwise, and is deleted from the pending
map. -/
def listReconcile :
    List UnitStatus → List (String × ListQuadlet) → List ListQuadlet →
      List ListQuadlet × List (String × ListQuadlet)
  | [], pend, acc => (acc, pend)
  | u :: rest, pend, acc =>
    let r := mapFindD pend u.Name ⟨"", "", ""⟩
    if u.LoadState ≠ "loaded" then
      listReconcile rest (mapDel pend u.Name) (acc ++ [⟨r.Name, r.Path, "Not loaded"⟩])
    else
      listReconcile rest (mapDel pend u.Name)
        (acc ++ [⟨r.Name, r.Path, u.ActiveState ++ "/" ++ u.SubState⟩])

/-- Lines 375-378: every queried service the response did not mention
yields "Not loaded". -/
def listLeftovers (pend : List (String × ListQuadlet)) : List ListQuadlet :=
  pend.map (fun e => ⟨e.2.Name, e.2.Path, "Not loaded"⟩)

/-- Lines 380-389: the final filter pass, verbatim: `include` starts
`true` and each filter function is OR-ed onto it. -/
def listApplyFilters (fns : List (ListQuadlet → Bool)) :
    List ListQuadlet → List ListQuadlet
  | [] => []
  | r :: rest =>
    if fns.foldl (fun inc f => inc || f r) true then r :: listApplyFilters fns rest
    else listApplyFilters fns rest

/-- Result of `QuadletList`. -/
structure ListOutcome : Type where
  reports : Option (List ListQuadlet)
  err : Option GoError
  deriving Repr, DecidableEq

/-- `QuadletList` (lines 290-392). -/
def quadletList (env : Env) (opts : QuadletListOptions) (fs : Fs) : ListOutcome :=
  match env.connect with
  | .error e => ⟨none, some ("connecting to systemd dbus: " ++ e)⟩
  | .ok _ =>
    let quadletPaths := getAllQuadletPaths env.unitDirs fs
    match buildFilterMap [] opts.Filters with
    | .error e => ⟨none, some e⟩
    | .ok fm =>
      match buildFilterFuncs env fm with
      | .error e => ⟨none, some e⟩
      | .ok fns =>
        let pre := listBuildPre env quadletPaths
        match env.listUnits pre.2.2 with
        | .error e => ⟨none, some ("querying systemd for unit status: " ++ e)⟩
        | .ok statuses =>
          let rl := listReconcile statuses pre.2.1 pre.1
          ⟨some (listApplyFilters fns (rl.1 ++ listLeftovers rl.2)), none⟩

/-! ### QuadletRemove (source lines 429-547) -/

/-- State of the resolution loop (lines 457-480): resolved paths, derived
service names, service-name-to-quadlet-name map, and the report so far. -/
structure RState : Type where
  paths : List String
  names : List String
  map : List (String × String)
  rep : QuadletRemoveReport
  deriving Repr, DecidableEq

/-- Lines 457-480: resolve each requested quadlet to a path, then derive
its service name.  The path is collected as soon as resolution succeeds —
before name derivation.  An unresolved quadlet is treated as removed when
`ignore` or `all` is set, otherwise recorded as an error. -/
def removeResolveLoop (env : Env) (opts : QuadletRemoveOptions) (fs : Fs) :
    List String → RState → RState
  | [], st => st
  | q :: rest, st =>
    match getQuadletByName env.unitDirs fs q with
    | .error e =>
      if opts.Ignore || opts.All then
        removeResolveLoop env opts fs rest
          ⟨st.paths, st.names, st.map, ⟨st.rep.Removed ++ [q], st.rep.Errors⟩⟩
      else
        removeResolveLoop env opts fs rest
          ⟨st.paths, st.names, st.map, ⟨st.rep.Removed, mapSet st.rep.Errors q e⟩⟩
    | .ok p =>
      match getQuadletServiceName env p with
      | .error e =>
        removeResolveLoop env opts fs rest
          ⟨st.paths ++ [p], st.names, st.map, ⟨st.rep.Removed, mapSet st.rep.Errors q e⟩⟩
      | .ok s =>
        removeResolveLoop env opts fs rest
          ⟨st.paths ++ [p], st.names ++ [s], mapSet st.map s q, st.rep⟩

/-- State of the status loop (lines 490-519). -/
structure SState : Type where
  rep : QuadletRemoveReport
  running : List String
  needReload : Bool
  stopAttempts : List String
  deriving Repr, DecidableEq

/-- Lines 490-519: for every returned unit that is loaded, remember that a
reload is needed; if it is active, either record a running error (no
force), or attempt a synchronous stop, recording stop failures.  Quadlets
recorded here in `running` are excluded from deletion.  `stopAttempts`
logs the quadlet names for which a stop was issued. -/
def removeStatusLoop (env : Env) (opts : QuadletRemoveOptions)
    (map : List (String × String)) : List UnitStatus → SState → SState
  | [], st => st
  | u :: rest, st =>
    let qn := mapFindD map u.Name ""
    if u.LoadState ≠ "loaded" then removeStatusLoop env opts map rest st
    else
      let st1 : SState := ⟨st.rep, st.running, true, st.stopAttempts⟩
      if u.ActiveState = "active" then
        if !opts.Force then
          removeStatusLoop env opts map rest
            ⟨⟨st1.rep.Removed, mapSet st1.rep.Errors qn
                ("quadlet " ++ qn ++ " is running and force is not set, refusing to remove")⟩,
              st1.running ++ [qn], st1.needReload, st1.stopAttempts⟩
        else
          let st2 : SState := ⟨st1.rep, st1.running, st1.needReload, st1.stopAttempts ++ [qn]⟩
          match env.stopUnit u.Name with
          | .error e =>
            removeStatusLoop env opts map rest
              ⟨⟨st2.rep.Removed, mapSet st2.rep.Errors qn ("stopping quadlet " ++ qn ++ ": " ++ e)⟩,
                st2.running ++ [qn], st2.needReload, st2.stopAttempts⟩
          | .ok _ =>
            let res := env.stopResult u.Name
            if res ≠ "done" ∧ res ≠ "skipped" then
              removeStatusLoop env opts map rest
                ⟨⟨st2.rep.Removed, mapSet st2.rep.Errors qn ("unable to stop quadlet " ++ qn ++ ": " ++ res)⟩,
                  st2.running ++ [qn], st2.needReload, st2.stopAttempts⟩
            else removeStatusLoop env opts map rest st2
      else removeStatusLoop env opts map rest st1

/-- Lines 523-537: delete the file behind every collected path whose base
name is not excluded as running; a missing file still counts as removed
(`fs.ErrNotExist` is success; other removal errors are not modelled). -/
def removeDeleteLoop (running : List String) :
    List String → Fs → QuadletRemoveReport → Fs × QuadletRemoveReport
  | [], fs, rep => (fs, rep)
  | p :: rest, fs, rep =>
    if running.contains (goBase p) then removeDeleteLoop running rest fs rep
    else removeDeleteLoop running rest (fsDel fs p) ⟨rep.Removed ++ [goBase p], rep.Errors⟩

/-- Result of `QuadletRemove`: the (possibly nil) report, the returned
error, the final filesystem, and the log of quadlet names for which a
stop was attempted. -/
structure RemoveOutcome : Type where
  report : Option QuadletRemoveReport
  err : Option GoError
  fs : Fs
  stopAttempts : List String
  deriving Repr, DecidableEq

/-- `QuadletRemove` (lines 429-547). -/
def quadletRemove (env : Env) (opts : QuadletRemoveOptions) (quadlets : List String)
    (fs : Fs) : RemoveOutcome :=
  if quadlets.isEmpty && !opts.All then
    ⟨none, some "must provide at least 1 quadlet to remove", fs, []⟩
  else
    match env.connect with
    | .error e => ⟨none, some ("connecting to systemd dbus: " ++ e), fs, []⟩
    | .ok _ =>
      let targets := if opts.All then getAllQuadletPaths env.unitDirs fs else quadlets
      let rst := removeResolveLoop env opts fs targets ⟨[], [], [], ⟨[], []⟩⟩
      let afterStatus : Except GoError SState :=
        if rst.names.isEmpty then .ok ⟨rst.rep, [], false, []⟩
        else
          match env.listUnits rst.names with
          | .error e => .error ("querying systemd for unit status: " ++ e)
          | .ok statuses =>
            .ok (removeStatusLoop env opts rst.map statuses ⟨rst.rep, [], false, []⟩)
      match afterStatus with
      | .error e => ⟨none, some e, fs, []⟩
      | .ok sst =>
        let dr := removeDeleteLoop sst.running rst.paths fs sst.rep
        if sst.needReload then
          match env.reload with
          | .error e => ⟨some dr.2, some ("reloading systemd: " ++ e), dr.1, sst.stopAttempts⟩
          | .ok _ => ⟨some dr.2, none, dr.1, sst.stopAttempts⟩
        else ⟨some dr.2, none, dr.1, sst.stopAttempts⟩

/-! ### Go-level report allocation (for the nil-map safety claim)

The engine allocates both reports with `new(...)` and never initializes
their map fields (source lines 98, 430); the entities types declare those
fields as Go maps ("two mappings" in the spec).  In Go the zero value of a
map is nil, and assigning to an entry of a nil map is a run-time panic.
`GoMap` models this: `none` is a nil map, and `goMapAssign` returns `none`
for the panic. -/

/-- A Go `map[string]V` reference: `none` is the nil map. -/
def GoMap (β : Type) : Type := Option (List (String × β))

/-- Go map assignment `m[k] = v`; `none` models the run-time panic on a
nil map. -/
def goMapAssign {β : Type} : GoMap β → String → β → Option (GoMap β)
  | none, _, _ => none
  | some m, k, v => some (some (mapSet m k v))

/-- `entities.QuadletInstallReport` with its map fields at the Go level. -/
structure QuadletInstallReportGo : Type where
  InstalledQuadlets : GoMap String
  QuadletErrors : GoMap GoError

/-- `new(entities.QuadletInstallReport)` (line 98): zero value, both map
fields nil. -/
def newQuadletInstallReportGo : QuadletInstallReportGo := ⟨none, none⟩

/-- Lines 157-163 at the Go level: record one reference's outcome in the
report; `none` is a panic. -/
def installRecordGo (rep : QuadletInstallReportGo) (ref : String)
    (outcome : Except GoError String) : Option QuadletInstallReportGo :=
  match outcome with
  | .error e =>
    match goMapAssign rep.QuadletErrors ref e with
    | none => none
    | some m => some ⟨rep.InstalledQuadlets, m⟩
  | .ok fp =>
    match goMapAssign rep.InstalledQuadlets ref fp with
    | none => none
    | some m => some ⟨m, rep.QuadletErrors⟩

/-- `entities.QuadletRemoveReport` with its `Errors` field at the Go
level. -/
structure QuadletRemoveReportGo : Type where
  Removed : List String
  Errors : GoMap GoError

/-- `new(entities.QuadletRemoveReport)` (line 430): zero value, nil
`Errors` map. -/
def newQuadletRemoveReportGo : QuadletRemoveReportGo := ⟨[], none⟩

/-- Line 465/474/500 etc. at the Go level: `report.Errors[quadlet] = err`;
`none` is a panic. -/
def removeRecordErrGo (rep : QuadletRemoveReportGo) (q : String) (e : GoError) :
    Option QuadletRemoveReportGo :=
  match goMapAssign rep.Errors q e with
  | none => none
  | some m => some ⟨rep.Removed, m⟩

/-! ### Association-map lemmas -/

theorem mapFind_cons {β : Type} (k' k : String) (v : β) (rest : List (String × β)) :
    mapFind ((k', v) :: rest) k = if k' = k then some v else mapFind rest k := rfl

theorem mapFind_set_self {β : Type} (m : List (String × β)) (k : String) (v : β) :
    mapFind (mapSet m k v) k = some v := by
  induction m with
  | nil => simp [mapSet, mapFind]
  | cons e rest ih =>
    obtain ⟨k', v'⟩ := e
    by_cases h : k' = k
    · simp [mapSet, h, mapFind]
    · simp [mapSet, h, mapFind, ih]

theorem mapFind_set_ne {β : Type} (m : List (String × β)) (k q : String) (v : β)
    (h : q ≠ k) : mapFind (mapSet m k v) q = mapFind m q := by
  induction m with
  | nil => simp [mapSet, mapFind, Ne.symm h]
  | cons e rest ih =>
    obtain ⟨k', v'⟩ := e
    by_cases hk : k' = k
    · subst hk
      simp [mapSet, mapFind, Ne.symm h]
    · simp only [mapSet, if_neg hk, mapFind]
      by_cases hq : k' = q <;> simp [hq, ih]

theorem mapFind_set_eq_some {β : Type} (m : List (String × β)) (k q : String) (v w : β)
    (h : mapFind (mapSet m k v) q = some w) : (q = k ∧ w = v) ∨ mapFind m q = some w := by
  by_cases hq : q = k
  · subst hq
    rw [mapFind_set_self] at h
    exact Or.inl ⟨rfl, (Option.some_injective _ h).symm⟩
  · rw [mapFind_set_ne m k q v hq] at h
    exact Or.inr h

theorem mapFind_mem {β : Type} (m : List (String × β)) (k : String) (v : β)
    (h : mapFind m k = some v) : (k, v) ∈ m := by
  induction m with
  | nil => simp [mapFind] at h
  | cons e rest ih =>
    obtain ⟨k', v'⟩ := e
    rw [mapFind_cons] at h
    by_cases hk : k' = k
    · subst hk
      simp only [if_pos rfl] at h
      obtain rfl := Option.some_injective _ h
      exact List.mem_cons_self _ _
    · rw [if_neg hk] at h
      exact List.mem_cons_of_mem _ (ih h)

theorem mapDel_find_ne {β : Type} (m : List (String × β)) (k q : String) (h : k ≠ q) :
    mapFind (mapDel m q) k = mapFind m k := by
  induction m with
  | nil => rfl
  | cons e rest ih =>
    obtain ⟨k', v'⟩ := e
    by_cases hq : k' = q
    · subst hq
      simp [mapDel, mapFind_cons, Ne.symm h, ih]
    · simp only [mapDel, if_neg hq]
      rw [mapFind_cons, mapFind_cons]
      by_cases hk : k' = k <;> simp [hk, ih]

theorem mapSet_keys_sub {β : Type} (m : List (String × β)) (k q : String) (v : β)
    (h : q ∈ (mapSet m k v).map Prod.fst) : q = k ∨ q ∈ m.map Prod.fst := by
  induction m with
  | nil =>
    simp only [mapSet, List.map_cons, List.map_nil, List.mem_singleton] at h
    exact Or.inl h
  | cons e rest ih =>
    obtain ⟨k', v'⟩ := e
    by_cases hk : k' = k
    · subst hk
      have he : mapSet ((k', v') :: rest) k' v = (k', v) :: rest := by simp [mapSet]
      rw [he] at h
      simp only [List.map_cons, List.mem_cons] at h ⊢
      rcases h with h | h
      · exact Or.inl h
      · exact Or.inr (Or.inr h)
    · simp only [mapSet, if_neg hk, List.map_cons, List.mem_cons] at h ⊢
      rcases h with h | h
      · exact Or.inr (Or.inl h)
      · exact (ih h).imp_right Or.inr

theorem mapSet_keys_nodup {β : Type} (m : List (String × β)) (k : String) (v : β)
    (h : (m.map Prod.fst).Nodup) : ((mapSet m k v).map Prod.fst).Nodup := by
  induction m with
  | nil => simp [mapSet]
  | cons e rest ih =>
    obtain ⟨k', v'⟩ := e
    simp only [List.map_cons, List.nodup_cons] at h
    by_cases hk : k' = k
    · subst hk
      simpa [mapSet, List.nodup_cons] using h
    · simp only [mapSet, if_neg hk, List.map_cons, List.nodup_cons]
      refine ⟨fun hmem => ?_, ih h.2⟩
      rcases mapSet_keys_sub rest k k' v hmem with h' | h'
      · exact hk h'
      · exact h.1 h'

theorem mapDel_sublist {β : Type} (m : List (String × β)) (q : String) :
    (mapDel m q).Sublist m := by
  induction m with
  | nil => exact List.Sublist.refl _
  | cons e rest ih =>
    obtain ⟨k', v'⟩ := e
    by_cases hq : k' = q
    · simp only [mapDel, if_pos hq]
      exact ih.cons _
    · simp only [mapDel, if_neg hq]
      exact ih.cons₂ _

theorem mapDel_keys_nodup {β : Type} (m : List (String × β)) (q : String)
    (h : (m.map Prod.fst).Nodup) : ((mapDel m q).map Prod.fst).Nodup :=
  ((mapDel_sublist m q).map Prod.fst).nodup h

theorem mapFind_nodup_of_mem {β : Type} (m : List (String × β)) (k : String) (v : β)
    (hnd : (m.map Prod.fst).Nodup) (hmem : (k, v) ∈ m) : mapFind m k = some v := by
  induction m with
  | nil => simp at hmem
  | cons e rest ih =>
    obtain ⟨k', v'⟩ := e
    simp only [List.map_cons, List.nodup_cons] at hnd
    rcases List.mem_cons.mp hmem with h | h
    · rw [Prod.mk.injEq] at h
      obtain ⟨h1, h2⟩ := h
      subst h1
      subst h2
      rw [mapFind_cons, if_pos rfl]
    · by_cases hk : k' = k
      · subst hk
        exact absurd (by simpa using List.mem_map_of_mem Prod.fst h) hnd.1
      · rw [mapFind_cons, if_neg hk]
        exact ih hnd.2 h

set_option maxRecDepth 10000

/-! ### Concrete environments for closed evaluations -/

/-- A benign environment: systemd reachable, generator present, one unit
directory, no artifact store / network, every unit-file unparsable unless
overridden, exact-match pattern matching. -/
def defaultEnv : Env := {
  connect := .ok ()
  unitDirs := ["/etc/containers/systemd"]
  installDir := "/inst"
  generatorOK := .ok ()
  installDirOK := .ok ()
  parseUnitFile := fun _ => .error "unparsable"
  getUnitServiceName := fun _ => .error "no name"
  matchPattern := fun s p => s == p
  getLayers := fun _ => .error "no artifact store"
  createTemp := fun n => .ok ("/tmp/quadlet-dl" ++ toString n)
  httpGet := fun _ => .error "no network"
  listUnits := fun _ => .ok []
  stopUnit := fun _ => .ok ()
  stopResult := fun _ => "done"
  reload := .ok ()
  validateOK := true
}

/-- Environment for the list-filter run: `b.container` parses and derives
service `b.service`. -/
def envC1 : Env := { defaultEnv with
  parseUnitFile := fun p =>
    if p = "/etc/containers/systemd/b.container" then .ok "unitB" else .error "bad ini"
  getUnitServiceName := fun u => if u = "unitB" then .ok "b" else .error "no name" }

/-- One installed quadlet named `b.container`. -/
def fsC1 : Fs := [("/etc/containers/systemd/b.container", FsEntry.file "x")]

/-- Claim C1: an entry of QuadletList is returned only if it satisfies
every supplied filter, and an entry satisfying no supplied filter is
excluded.  Refuted on the code: the combination loop starts `include`
at `true` and ORs each filter onto it (lines 382-385), so with the
non-empty filter set `name=a.container` the sole entry `b.container` —
which matches no filter value, second conjunct — is still returned. -/
theorem c1_entry_matching_no_filter_is_returned :
    quadletList envC1 ⟨["name=a.container"]⟩ fsC1 =
      ⟨some [⟨"b.container", "/etc/containers/systemd/b.container", "Not loaded"⟩], none⟩ ∧
    envC1.matchPattern "b.container" "a.container" = false :=
  ⟨by decide, by decide⟩

/-- One installed quadlet `foo.container` with contents "c". -/
def fsC2 : Fs := [("/etc/containers/systemd/foo.container", FsEntry.file "c")]

/-- Claim C2: QuadletRemove with `all` set deletes the backing file of
every enumerated quadlet, so that afterwards no installed quadlet file
remains on disk.  Refuted on the code: full-directory enumeration yields
full paths, which `getQuadletByName` joins onto each unit directory
again, so every enumerated quadlet fails resolution, is reported as
removed (All implies Ignore), and its file is never deleted — the final
filesystem still contains `foo.container` with its contents intact. -/
theorem c2_remove_all_deletes_nothing :
    quadletRemove defaultEnv ⟨false, true, false, false⟩ [] fsC2 =
      ⟨some ⟨["/etc/containers/systemd/foo.container"], []⟩, none, fsC2, []⟩ ∧
    mapFind fsC2 "/etc/containers/systemd/foo.container" = some (FsEntry.file "c") :=
  ⟨by decide, by decide⟩

/-- Environment whose artifact store fails every layer retrieval. -/
def envC3 : Env := { defaultEnv with getLayers := fun _ => .error "boom" }

/-- A perfectly installable sibling source file. -/
def fsC3 : Fs := [("/src/good.container", FsEntry.file "g")]

/-- Claim C3: a fetch failure for one reference — including failure to
retrieve an OCI artifact's layers — is recorded as a per-item error and
does not abort sibling references.  Refuted on the code: `GetLayers`
failure returns `nil` report and a batch-level error (line 112); the
sibling `/src/good.container` receives no outcome and nothing is
installed, although installing it would have succeeded (second
conjunct). -/
theorem c3_artifact_fetch_failure_aborts_batch :
    quadletInstall envC3 ⟨false⟩ ["oci-artifact://bad", "/src/good.container"] fsC3 =
      ⟨none, some "retrieving OCI artifact bad: boom", fsC3⟩ ∧
    installQuadlet fsC3 "/src/good.container" "" envC3.installDir =
      .ok ("/inst/good.container",
        [("/src/good.container", FsEntry.file "g"), ("/inst/good.container", FsEntry.file "g")]) :=
  ⟨by decide, by decide⟩

/-- Environment with one artifact `art` holding one layer
`web.container` stored at `/store/l1`. -/
def envC4 : Env := { defaultEnv with
  getLayers := fun a =>
    if a = "art" then .ok [("web.container", "/store/l1")] else .error "no artifact store" }

/-- The artifact layer blob on disk. -/
def fsC4 : Fs := [("/store/l1", FsEntry.file "body")]

/-- Claim C4, counterexample: for the input reference
`oci-artifact://art` the call returns a report in which that original
reference appears in neither mapping — the layer's outcome is keyed by
its on-disk path `/store/l1` instead (lines 121, 124). -/
theorem c4_counterexample_artifact_ref_in_neither_mapping :
    (quadletInstall envC4 ⟨false⟩ ["oci-artifact://art"] fsC4).report =
      some ⟨[("/store/l1", "/inst/web.container")], []⟩ ∧
    mapHasKey ([("/store/l1", "/inst/web.container")] : List (String × String))
      "oci-artifact://art" = false ∧
    mapHasKey ([] : List (String × GoError)) "oci-artifact://art" = false :=
  ⟨by decide, by decide, by decide⟩

/-- Claim C9: recording a per-item outcome into the report's map fields
never panics, given the report is allocated with `new` and its map
fields are never otherwise initialized.  Refuted on the code: in Go the
zero value of a map is nil and assigning to an entry of a nil map
panics, so every first recording — install success or error, and every
remove error — panics. -/
theorem c9_nil_map_recording_panics :
    (∀ (ref : String) (res : Except GoError String),
      installRecordGo newQuadletInstallReportGo ref res = none) ∧
    (∀ (q : String) (e : GoError),
      removeRecordErrGo newQuadletRemoveReportGo q e = none) := by
  constructor
  · intro ref res
    cases res <;> rfl
  · intro q e
    rfl

/-- Claim C5: an install whose computed destination already exists fails
with the already-exists error for that reference, leaving the
pre-existing destination byte-for-byte unchanged: `installQuadlet`
returns the already-exists error without touching the filesystem, and
the local-path branch records exactly that error for the reference with
the loop state's filesystem unchanged. -/
theorem c5_existing_destination_rejected_unchanged (st : InstState)
    (path destName installDir : String)
    (csrc : String) (hsrc : mapFind st.fs path = some (FsEntry.file csrc))
    (d : FsEntry) (hdest : mapFind st.fs (installDest path destName installDir) = some d) :
    installQuadlet st.fs path destName installDir =
      .error ("a Quadlet with name " ++ goBase (installDest path destName installDir) ++
        " already exists, refusing to overwrite") ∧
    (destName = "" →
      localStep installDir st path =
        ⟨st.fs, ⟨st.rep.InstalledQuadlets,
          mapSet st.rep.QuadletErrors path
            ("a Quadlet with name " ++ goBase (installDest path "" installDir) ++
              " already exists, refusing to overwrite")⟩, st.tmpCtr, st.tmps⟩) := by
  have h1 : installQuadlet st.fs path destName installDir =
      .error ("a Quadlet with name " ++ goBase (installDest path destName installDir) ++
        " already exists, refusing to overwrite") := by
    unfold installQuadlet
    rw [hsrc]
    simp only []
    rw [hdest]
  refine ⟨h1, fun hd => ?_⟩
  subst hd
  unfold localStep
  rw [h1]
  rfl

/-- Source file present, destination name already taken. -/
def fsC5 : Fs := [("/src/a.container", FsEntry.file "NEW"), ("/inst/a.container", FsEntry.file "OLD")]

/-- Witness for claim C5 at a concrete input. -/
theorem c5_witness :
    installQuadlet fsC5 "/src/a.container" "" "/inst" =
      .error ("a Quadlet with name " ++ goBase (installDest "/src/a.container" "" "/inst") ++
        " already exists, refusing to overwrite") ∧
    localStep "/inst" ⟨fsC5, ⟨[], []⟩, 0, []⟩ "/src/a.container" =
      ⟨fsC5, ⟨[], mapSet [] "/src/a.container"
        ("a Quadlet with name " ++ goBase (installDest "/src/a.container" "" "/inst") ++
          " already exists, refusing to overwrite")⟩, 0, []⟩ := by
  have h := c5_existing_destination_rejected_unchanged ⟨fsC5, ⟨[], []⟩, 0, []⟩
    "/src/a.container" "" "/inst" "NEW" (by decide) (FsEntry.file "OLD") (by decide)
  exact ⟨h.1, h.2 rfl⟩

/-- Claim C10: an HTTP response that completes at the transport level is
treated as a successful fetch regardless of its status code — the branch
never examines the code (first conjunct: the step is the same function of
the body for any two status codes); a successfully read body is written
to the temporary file and submitted for installation (second conjunct);
a completed GET proceeds to body handling (third conjunct), and only a
transport-level GET error yields the per-item download error (fourth
conjunct). -/
theorem c10_http_status_code_ignored (env : Env) (ref tmp : String)
    (st : InstState) (code code' : Nat) (br : Except GoError String) :
    afterGetStep env.installDir ref tmp (code, br) st =
      afterGetStep env.installDir ref tmp (code', br) st ∧
    (∀ body : String, br = .ok body →
      afterGetStep env.installDir ref tmp (code, br) st =
        (match installQuadlet (fsWrite st.fs tmp body) tmp "" env.installDir with
         | .error e => recordInstallErr ⟨fsWrite st.fs tmp body, st.rep, st.tmpCtr, st.tmps⟩ ref e
         | .ok (fp, fs') =>
           recordInstallOk ⟨fsWrite st.fs tmp body, st.rep, st.tmpCtr, st.tmps⟩ ref fp fs')) ∧
    (∀ resp : Nat × Except GoError String, env.httpGet ref = .ok resp →
      env.createTemp st.tmpCtr = .ok tmp →
      httpStep env ref st =
        afterGetStep env.installDir ref tmp resp
          ⟨fsWrite st.fs tmp "", st.rep, st.tmpCtr + 1, st.tmps ++ [tmp]⟩) ∧
    (∀ e : GoError, env.httpGet ref = .error e →
      env.createTemp st.tmpCtr = .ok tmp →
      httpStep env ref st =
        recordInstallErr ⟨fsWrite st.fs tmp "", st.rep, st.tmpCtr + 1, st.tmps ++ [tmp]⟩ ref
          ("unable to download URL " ++ ref ++ ": " ++ e)) := by
  refine ⟨?_, ?_, ?_, ?_⟩
  · cases br <;> rfl
  · intro body hb
    subst hb
    rfl
  · intro resp hg hct
    unfold httpStep
    rw [hct]
    simp only []
    rw [hg]
  · intro e hg hct
    unfold httpStep
    rw [hct]
    simp only []
    rw [hg]

/-- Environment whose HTTP client answers the one URL with status 404 and
body "BODY". -/
def envC10 : Env := { defaultEnv with
  httpGet := fun u =>
    if u = "http://x/q.container" then .ok (404, .ok "BODY") else .error "no network" }

/-- Witness for claim C10 at a concrete input: a 404 response behaves as
a 200 response, and the completed GET reaches body handling. -/
theorem c10_witness :
    afterGetStep envC10.installDir "http://x/q.container" "/tmp/quadlet-dl0"
        (404, .ok "BODY") ⟨[], ⟨[], []⟩, 0, []⟩ =
      afterGetStep envC10.installDir "http://x/q.container" "/tmp/quadlet-dl0"
        (200, .ok "BODY") ⟨[], ⟨[], []⟩, 0, []⟩ ∧
    httpStep envC10 "http://x/q.container" ⟨[], ⟨[], []⟩, 0, []⟩ =
      afterGetStep envC10.installDir "http://x/q.container" "/tmp/quadlet-dl0"
        (404, .ok "BODY")
        ⟨fsWrite [] "/tmp/quadlet-dl0" "", ⟨[], []⟩, 1, ["/tmp/quadlet-dl0"]⟩ := by
  have h := c10_http_status_code_ignored envC10 "http://x/q.container" "/tmp/quadlet-dl0"
    ⟨[], ⟨[], []⟩, 0, []⟩ 404 200 (.ok "BODY")
  exact ⟨h.1, h.2.2.1 (404, .ok "BODY") (by decide) (by decide)⟩

/-! ### Per-reference outcome analysis of the install loop (claim C4) -/

/-- The reference has exactly one outcome in the report: installed, or
errored, never both, never neither. -/
abbrev reportKeyOutcome (rep : QuadletInstallReport) (r : String) : Prop :=
  (mapHasKey rep.InstalledQuadlets r = true ∧ mapHasKey rep.QuadletErrors r = false) ∨
  (mapHasKey rep.InstalledQuadlets r = false ∧ mapHasKey rep.QuadletErrors r = true)

/-- One loop iteration records exactly one outcome, keyed by the
reference itself. -/
abbrev stepOutcome (st st' : InstState) (r : String) : Prop :=
  (∃ v, st'.rep.InstalledQuadlets = mapSet st.rep.InstalledQuadlets r v ∧
        st'.rep.QuadletErrors = st.rep.QuadletErrors) ∨
  (∃ e, st'.rep.QuadletErrors = mapSet st.rep.QuadletErrors r e ∧
        st'.rep.InstalledQuadlets = st.rep.InstalledQuadlets)

theorem afterGetStep_shape (dir ref tmp : String) (resp : Nat × Except GoError String)
    (st : InstState) :
    ∃ st', afterGetStep dir ref tmp resp st = st' ∧ stepOutcome st st' ref := by
  obtain ⟨code, br⟩ := resp
  cases br with
  | error e =>
    exact ⟨recordInstallErr st ref ("populating temporary file: " ++ e),
      by simp [afterGetStep], Or.inr ⟨_, rfl, rfl⟩⟩
  | ok body =>
    cases hi : installQuadlet (fsWrite st.fs tmp body) tmp "" dir with
    | error e =>
      exact ⟨recordInstallErr ⟨fsWrite st.fs tmp body, st.rep, st.tmpCtr, st.tmps⟩ ref e,
        by simp [afterGetStep, hi], Or.inr ⟨_, rfl, rfl⟩⟩
    | ok pr =>
      obtain ⟨fp, fs'⟩ := pr
      exact ⟨recordInstallOk ⟨fsWrite st.fs tmp body, st.rep, st.tmpCtr, st.tmps⟩ ref fp fs',
        by simp [afterGetStep, hi], Or.inl ⟨_, rfl, rfl⟩⟩

theorem httpStep_shape (env : Env) (ref : String) (st : InstState) :
    ∃ st', httpStep env ref st = st' ∧ stepOutcome st st' ref := by
  cases hct : env.createTemp st.tmpCtr with
  | error e =>
    exact ⟨recordInstallErr ⟨st.fs, st.rep, st.tmpCtr + 1, st.tmps⟩ ref
        ("unable to create temporay file to download URL " ++ ref ++ ": " ++ e),
      by simp [httpStep, hct], Or.inr ⟨_, rfl, rfl⟩⟩
  | ok tmp =>
    cases hg : env.httpGet ref with
    | error e =>
      exact ⟨recordInstallErr ⟨fsWrite st.fs tmp "", st.rep, st.tmpCtr + 1, st.tmps ++ [tmp]⟩ ref
          ("unable to download URL " ++ ref ++ ": " ++ e),
        by simp [httpStep, hct, hg], Or.inr ⟨_, rfl, rfl⟩⟩
    | ok resp =>
      obtain ⟨st', heq, hout⟩ := afterGetStep_shape env.installDir ref tmp resp
        ⟨fsWrite st.fs tmp "", st.rep, st.tmpCtr + 1, st.tmps ++ [tmp]⟩
      refine ⟨st', ?_, ?_⟩
      · rw [show httpStep env ref st =
            afterGetStep env.installDir ref tmp resp
              ⟨fsWrite st.fs tmp "", st.rep, st.tmpCtr + 1, st.tmps ++ [tmp]⟩ by
          simp [httpStep, hct, hg]]
        exact heq
      · exact hout

theorem localStep_shape (dir : String) (st : InstState) (r : String) :
    ∃ st', localStep dir st r = st' ∧ stepOutcome st st' r := by
  cases hi : installQuadlet st.fs r "" dir with
  | error e =>
    exact ⟨recordInstallErr st r e, by simp [localStep, hi], Or.inr ⟨_, rfl, rfl⟩⟩
  | ok pr =>
    obtain ⟨fp, fs'⟩ := pr
    exact ⟨recordInstallOk st r fp fs', by simp [localStep, hi], Or.inl ⟨_, rfl, rfl⟩⟩

theorem processInstallRef_nonOci (env : Env) (st : InstState) (r : String)
    (h : isOciRef r = false) :
    ∃ st', processInstallRef env st r = (none, st') ∧ stepOutcome st st' r := by
  cases hu : isUrlRef r with
  | true =>
    obtain ⟨st', heq, hout⟩ := httpStep_shape env r st
    exact ⟨st', by simp [processInstallRef, h, hu, heq], hout⟩
  | false =>
    obtain ⟨st', heq, hout⟩ := localStep_shape env.installDir st r
    exact ⟨st', by simp [processInstallRef, h, hu, heq], hout⟩

/-- Installing the layers of one artifact touches only keys among the
layers' on-disk paths. -/
theorem artifactLayersStep_keys (dir k : String) :
    ∀ (layers : List (String × String)) (st : InstState),
      (∀ lay ∈ layers, lay.2 ≠ k) →
      mapFind (artifactLayersStep dir st layers).rep.InstalledQuadlets k =
        mapFind st.rep.InstalledQuadlets k ∧
      mapFind (artifactLayersStep dir st layers).rep.QuadletErrors k =
        mapFind st.rep.QuadletErrors k := by
  intro layers
  induction layers with
  | nil => intro st _; exact ⟨rfl, rfl⟩
  | cons lay rest ih =>
    intro st hcol
    have hlay : k ≠ lay.2 :=
      fun hh => hcol lay (List.mem_cons_self _ _) hh.symm
    have hrest : ∀ l ∈ rest, l.2 ≠ k := fun l hl => hcol l (List.mem_cons_of_mem _ hl)
    cases hi : installQuadlet st.fs lay.2 lay.1 dir with
    | error e =>
      have hstep : artifactLayersStep dir st (lay :: rest) =
          artifactLayersStep dir (recordInstallErr st lay.2 e) rest := by
        simp [artifactLayersStep, hi]
      rw [hstep]
      obtain ⟨h1, h2⟩ := ih (recordInstallErr st lay.2 e) hrest
      rw [h1, h2]
      exact ⟨rfl, mapFind_set_ne _ _ _ _ hlay⟩
    | ok pr =>
      obtain ⟨fp, fs'⟩ := pr
      have hstep : artifactLayersStep dir st (lay :: rest) =
          artifactLayersStep dir (recordInstallOk st lay.2 fp fs') rest := by
        simp [artifactLayersStep, hi]
      rw [hstep]
      obtain ⟨h1, h2⟩ := ih (recordInstallOk st lay.2 fp fs') hrest
      rw [h1, h2]
      exact ⟨mapFind_set_ne _ _ _ _ hlay, rfl⟩

/-- One loop iteration for reference `r` never touches the entries of a
different key `k`, provided no layer of an artifact `r` is stored at
path `k`. -/
theorem processInstallRef_keys (env : Env) (st : InstState) (r k : String)
    (hrk : r ≠ k)
    (hcol : isOciRef r = true →
      ∀ layers, env.getLayers (goTrimPre r "oci-artifact://") = .ok layers →
      ∀ lay ∈ layers, lay.2 ≠ k) :
    mapFind (processInstallRef env st r).2.rep.InstalledQuadlets k =
      mapFind st.rep.InstalledQuadlets k ∧
    mapFind (processInstallRef env st r).2.rep.QuadletErrors k =
      mapFind st.rep.QuadletErrors k := by
  cases ho : isOciRef r with
  | false =>
    obtain ⟨st', heq, hout⟩ := processInstallRef_nonOci env st r ho
    rw [heq]
    rcases hout with ⟨v, h1, h2⟩ | ⟨e, h1, h2⟩
    · rw [h1, h2]
      exact ⟨mapFind_set_ne _ _ _ _ (Ne.symm hrk), rfl⟩
    · rw [h1, h2]
      exact ⟨rfl, mapFind_set_ne _ _ _ _ (Ne.symm hrk)⟩
  | true =>
    cases hl : env.getLayers (goTrimPre r "oci-artifact://") with
    | error e =>
      have hstep : processInstallRef env st r =
          (some ("retrieving OCI artifact " ++ goTrimPre r "oci-artifact://" ++ ": " ++ e),
            st) := by
        simp [processInstallRef, ho, hl]
      rw [hstep]
      exact ⟨rfl, rfl⟩
    | ok layers =>
      have hstep : processInstallRef env st r =
          (none, artifactLayersStep env.installDir st layers) := by
        simp [processInstallRef, ho, hl]
      rw [hstep]
      exact artifactLayersStep_keys env.installDir k layers st (hcol ho layers hl)

/-- The whole install loop — whether or not it aborts — never touches
the entries of a key that is not among its references, provided no
artifact layer is stored at that key. -/
theorem installLoop_keys_untouched (env : Env) (k : String) :
    ∀ (l : List String), k ∉ l →
      (∀ r ∈ l, isOciRef r = true →
        ∀ layers, env.getLayers (goTrimPre r "oci-artifact://") = .ok layers →
        ∀ lay ∈ layers, lay.2 ≠ k) →
      ∀ st,
        mapFind (installLoop env l st).2.rep.InstalledQuadlets k =
          mapFind st.rep.InstalledQuadlets k ∧
        mapFind (installLoop env l st).2.rep.QuadletErrors k =
          mapFind st.rep.QuadletErrors k := by
  intro l
  induction l with
  | nil => intro _ _ st; exact ⟨rfl, rfl⟩
  | cons r rest ih =>
    intro hk hcol st
    have hrk : r ≠ k := fun hh => hk (hh ▸ List.mem_cons_self _ _)
    have hkeys := processInstallRef_keys env st r k hrk (hcol r (List.mem_cons_self _ _))
    rcases hstep : processInstallRef env st r with ⟨e?, st1⟩
    rw [hstep] at hkeys
    cases e? with
    | some e =>
      have hloopeq : installLoop env (r :: rest) st = (some e, st1) := by
        simp [installLoop, hstep]
      rw [hloopeq]
      exact hkeys
    | none =>
      have hloopeq : installLoop env (r :: rest) st = installLoop env rest st1 := by
        simp [installLoop, hstep]
      rw [hloopeq]
      obtain ⟨h1, h2⟩ := ih (fun hh => hk (List.mem_cons_of_mem _ hh))
        (fun x hx => hcol x (List.mem_cons_of_mem _ hx)) st1
      rw [h1, h2, hkeys.1, hkeys.2]
      exact ⟨rfl, rfl⟩

/-- When the loop runs to completion, every non-artifact reference ends
with exactly one outcome, provided the references are distinct and no
artifact layer is stored at that reference. -/
theorem installLoop_outcome_mixed (env : Env) (k : String) (hk : isOciRef k = false) :
    ∀ (l : List String), l.Nodup → k ∈ l →
      (∀ r ∈ l, isOciRef r = true →
        ∀ layers, env.getLayers (goTrimPre r "oci-artifact://") = .ok layers →
        ∀ lay ∈ layers, lay.2 ≠ k) →
      ∀ st, mapFind st.rep.InstalledQuadlets k = none →
        mapFind st.rep.QuadletErrors k = none →
        ∀ st', installLoop env l st = (none, st') →
          reportKeyOutcome st'.rep k := by
  intro l
  induction l with
  | nil => intro _ hkmem; exact absurd hkmem (List.not_mem_nil k)
  | cons r rest ih =>
    intro hnd hkmem hcol st h0i h0e st' hloop
    rw [List.nodup_cons] at hnd
    rcases hstep : processInstallRef env st r with ⟨e?, st1⟩
    simp only [installLoop, hstep] at hloop
    cases e? with
    | some e => simp at hloop
    | none =>
      simp only at hloop
      rcases List.mem_cons.mp hkmem with hkr | hkrest
      · subst hkr
        obtain ⟨st'', heq, hout⟩ := processInstallRef_nonOci env st k hk
        rw [heq] at hstep
        obtain rfl : st'' = st1 := by injection hstep
        have huntouched := installLoop_keys_untouched env k rest hnd.1
          (fun x hx => hcol x (List.mem_cons_of_mem _ hx)) st''
        rw [hloop] at huntouched
        simp only at huntouched
        rcases hout with ⟨v, hv1, hv2⟩ | ⟨e, he1, he2⟩
        · refine Or.inl ⟨?_, ?_⟩
          · rw [mapHasKey, huntouched.1, hv1, mapFind_set_self]
            rfl
          · rw [mapHasKey, huntouched.2, hv2, h0e]
            rfl
        · refine Or.inr ⟨?_, ?_⟩
          · rw [mapHasKey, huntouched.1, he2, h0i]
            rfl
          · rw [mapHasKey, huntouched.2, he1, mapFind_set_self]
            rfl
      · have hrk : r ≠ k := fun hh => hnd.1 (hh ▸ hkrest)
        have hkeys := processInstallRef_keys env st r k hrk (hcol r (List.mem_cons_self _ _))
        rw [hstep] at hkeys
        refine ih hnd.2 hkrest (fun x hx => hcol x (List.mem_cons_of_mem _ hx)) st1 ?_ ?_ st' hloop
        · rw [hkeys.1]; exact h0i
        · rw [hkeys.2]; exact h0e

/-- A returned report is exactly the loop's report: the call returned a
report only if the preamble checks passed and the loop finished without
a batch abort. -/
theorem quadletInstall_report_some (env : Env) (opts : QuadletInstallOptions)
    (refs : List String) (fs : Fs) (rep : QuadletInstallReport)
    (h : (quadletInstall env opts refs fs).report = some rep) :
    ∃ st, installLoop env refs ⟨fs, ⟨[], []⟩, 0, []⟩ = (none, st) ∧ rep = st.rep := by
  simp only [quadletInstall] at h
  cases hc : env.connect with
  | error e => rw [hc] at h; simp at h
  | ok u =>
    obtain rfl : u = () := rfl
    rw [hc] at h
    cases hg : env.generatorOK with
    | error e => rw [hg] at h; simp at h
    | ok u =>
      obtain rfl : u = () := rfl
      rw [hg] at h
      cases hd : env.installDirOK with
      | error e => rw [hd] at h; simp at h
      | ok u =>
        obtain rfl : u = () := rfl
        rw [hd] at h
        rcases hloop : installLoop env refs ⟨fs, ⟨[], []⟩, 0, []⟩ with ⟨e?, st⟩
        rw [hloop] at h
        cases e? with
        | some e => simp at h
        | none =>
          refine ⟨st, rfl, ?_⟩
          cases hb : opts.ReloadSystemd with
          | false =>
            simp only [hb] at h
            simp at h
            exact h.symm
          | true =>
            cases hr : env.reload with
            | error e =>
              simp only [hb, hr] at h
              simp [hr] at h
              exact h.symm
            | ok u =>
              simp only [hb, hr] at h
              simp [hr] at h
              exact h.symm

/-- Claim C4 (amended): for every call to QuadletInstall that returns a
report, each input reference that is not an `oci-artifact://` reference
appears as a key in exactly one of the report's two mappings — the
inputs being pairwise distinct, and no retrieved artifact layer being
stored on disk at a path equal to a non-artifact input reference.  (The
counterexample shows why artifact references are excluded: their
per-layer outcomes are keyed by each layer's on-disk path — lines 121,
124 — and the reference itself appears in neither mapping.  The same
keying is why a layer path colliding with a sibling non-artifact
reference would place that sibling in both mappings, forcing the
no-collision proviso.) -/
theorem c4_nonartifact_ref_exactly_one_outcome (env : Env) (opts : QuadletInstallOptions)
    (refs : List String) (fs : Fs) (rep : QuadletInstallReport)
    (hnd : refs.Nodup)
    (hrep : (quadletInstall env opts refs fs).report = some rep)
    (hcol : ∀ r ∈ refs, isOciRef r = true →
      ∀ layers, env.getLayers (goTrimPre r "oci-artifact://") = .ok layers →
      ∀ lay ∈ layers, ∀ k ∈ refs, isOciRef k = false → lay.2 ≠ k) :
    ∀ r ∈ refs, isOciRef r = false → reportKeyOutcome rep r := by
  intro r hr hro
  obtain ⟨st, hloop, hrepeq⟩ := quadletInstall_report_some env opts refs fs rep hrep
  subst hrepeq
  exact installLoop_outcome_mixed env r hro refs hnd hr
    (fun q hq hqo layers hl lay hlay => hcol q hq hqo layers hl lay hlay r hr hro)
    ⟨fs, ⟨[], []⟩, 0, []⟩ rfl rfl st hloop

/-- The artifact layer blob and an installable non-artifact sibling, for
the mixed-batch witness of the amended claim C4. -/
def fsC4w : Fs :=
  [("/store/l1", FsEntry.file "body"), ("/src/good.container", FsEntry.file "g")]

/-- Witness for claim C4 (amended) at a concrete mixed batch: one
artifact reference plus one local reference; the call returns a report
in which the local reference has exactly one outcome. -/
theorem c4_witness :
    (quadletInstall envC4 ⟨false⟩ ["oci-artifact://art", "/src/good.container"] fsC4w).report =
      some ⟨[("/store/l1", "/inst/web.container"),
             ("/src/good.container", "/inst/good.container")], []⟩ ∧
    reportKeyOutcome
      ⟨[("/store/l1", "/inst/web.container"),
        ("/src/good.container", "/inst/good.container")], []⟩ "/src/good.container" := by
  have hcol : ∀ r ∈ ["oci-artifact://art", "/src/good.container"], isOciRef r = true →
      ∀ layers, envC4.getLayers (goTrimPre r "oci-artifact://") = .ok layers →
      ∀ lay ∈ layers, ∀ k ∈ ["oci-artifact://art", "/src/good.container"],
        isOciRef k = false → lay.2 ≠ k := by
    intro r hr hoci layers hl lay hlay k hkmem hknon
    rcases List.mem_cons.mp hr with rfl | hr
    · have h0 : envC4.getLayers (goTrimPre "oci-artifact://art" "oci-artifact://") =
          Except.ok [("web.container", "/store/l1")] := by decide
      rw [h0] at hl
      obtain rfl : [(("web.container" : String), ("/store/l1" : String))] = layers := by
        injection hl
      rw [List.mem_singleton] at hlay
      subst hlay
      rcases List.mem_cons.mp hkmem with rfl | hk2
      · exact absurd hknon (by decide)
      · rw [List.mem_singleton] at hk2
        subst hk2
        decide
    · rw [List.mem_singleton] at hr
      subst hr
      exact absurd hoci (by decide)
  have h := c4_nonartifact_ref_exactly_one_outcome envC4 ⟨false⟩
    ["oci-artifact://art", "/src/good.container"] fsC4w
    ⟨[("/store/l1", "/inst/web.container"),
      ("/src/good.container", "/inst/good.container")], []⟩
    (by decide) (by decide) hcol
  exact ⟨by decide, h "/src/good.container" (by decide) (by decide)⟩


/-! ### Status reconciliation of QuadletList (claim C8) -/

/-- The status the claim prescribes for queried service `s`: the first
returned unit named `s` yields "Not loaded" when its LoadState is not
"loaded" and "<ActiveState>/<SubState>" otherwise; a name absent from
the response yields "Not loaded". -/
def claimStatus (sts : List UnitStatus) (s : String) : String :=
  match sts.find? (fun u => u.Name == s) with
  | some u =>
    if u.LoadState ≠ "loaded" then "Not loaded" else u.ActiveState ++ "/" ++ u.SubState
  | none => "Not loaded"

theorem listReconcile_acc_mono :
    ∀ (sts : List UnitStatus) (pend : List (String × ListQuadlet))
      (acc : List ListQuadlet) (x : ListQuadlet),
      x ∈ acc → x ∈ (listReconcile sts pend acc).1 := by
  intro sts
  induction sts with
  | nil => intro pend acc x hx; exact hx
  | cons u rest ih =>
    intro pend acc x hx
    simp only [listReconcile]
    split
    · exact ih _ _ x (List.mem_append_left _ hx)
    · exact ih _ _ x (List.mem_append_left _ hx)

theorem listReconcile_mem :
    ∀ (sts : List UnitStatus) (pend : List (String × ListQuadlet))
      (acc : List ListQuadlet) (s : String) (r : ListQuadlet),
      mapFind pend s = some r → (pend.map Prod.fst).Nodup →
      (⟨r.Name, r.Path, claimStatus sts s⟩ : ListQuadlet) ∈
        (listReconcile sts pend acc).1 ++ listLeftovers (listReconcile sts pend acc).2 := by
  intro sts
  induction sts with
  | nil =>
    intro pend acc s r hfind _
    simp only [listReconcile, listLeftovers]
    apply List.mem_append_right
    exact List.mem_map.mpr ⟨(s, r), mapFind_mem pend s r hfind, rfl⟩
  | cons u rest ih =>
    intro pend acc s r hfind hnd
    by_cases hn : u.Name = s
    · have hD : mapFindD pend u.Name ⟨"", "", ""⟩ = r := by
        simp [mapFindD, hn, hfind]
      have hfindu : (u :: rest).find? (fun x => x.Name == s) = some u :=
        List.find?_cons_of_pos _ (by simp [hn])
      have hcs : claimStatus (u :: rest) s =
          (if u.LoadState ≠ "loaded" then "Not loaded"
           else u.ActiveState ++ "/" ++ u.SubState) := by
        unfold claimStatus
        rw [hfindu]
      by_cases hl : u.LoadState ≠ "loaded"
      · simp only [listReconcile, hD, if_pos hl]
        rw [hcs, if_pos hl]
        apply List.mem_append_left
        apply listReconcile_acc_mono
        exact List.mem_append_right _ (List.mem_singleton.mpr rfl)
      · simp only [listReconcile, hD, if_neg hl]
        rw [hcs, if_neg hl]
        apply List.mem_append_left
        apply listReconcile_acc_mono
        exact List.mem_append_right _ (List.mem_singleton.mpr rfl)
    · have hfind' : mapFind (mapDel pend u.Name) s = some r := by
        rw [mapDel_find_ne _ _ _ (fun hh => hn hh.symm)]
        exact hfind
      have hnd' := mapDel_keys_nodup pend u.Name hnd
      have hcs : claimStatus (u :: rest) s = claimStatus rest s := by
        unfold claimStatus
        rw [List.find?_cons_of_neg _ (by simp [hn])]
      rw [hcs]
      simp only [listReconcile]
      split
      · exact ih _ _ s r hfind' hnd'
      · exact ih _ _ s r hfind' hnd'

theorem listBuildPreLoop_nodup (env : Env) :
    ∀ (paths : List String)
      (acc : List ListQuadlet × List (String × ListQuadlet) × List String),
      (acc.2.1.map Prod.fst).Nodup →
      ((listBuildPreLoop env paths acc).2.1.map Prod.fst).Nodup := by
  intro paths
  induction paths with
  | nil => intro acc h; exact h
  | cons p rest ih =>
    intro acc h
    simp only [listBuildPreLoop]
    cases hsvc : getQuadletServiceName env p with
    | error e => exact ih _ h
    | ok s => exact ih _ (mapSet_keys_nodup _ _ _ h)

theorem listApplyFilters_nil : ∀ rs : List ListQuadlet, listApplyFilters [] rs = rs := by
  intro rs
  induction rs with
  | nil => rfl
  | cons r rest ih => simp [listApplyFilters, ih]

/-- Claim C8: every entry QuadletList builds from a successfully parsed
quadlet file (a pending entry keyed by its derived service name) gets
its status from the single batch query by the prescribed rule: a
returned unit with LoadState not "loaded" yields "Not loaded", a loaded
unit yields "<ActiveState>/<SubState>", and a queried name absent from
the response yields "Not loaded" — `claimStatus` is exactly that rule.
(Stated with no filters supplied, so the filter pass keeps every
entry.) -/
theorem c8_status_determined_by_batch_query (env : Env) (opts : QuadletListOptions) (fs : Fs)
    (s : String) (r : ListQuadlet) (sts : List UnitStatus)
    (hconn : env.connect = .ok ())
    (hfilters : opts.Filters = [])
    (hmem : mapFind (listBuildPre env (getAllQuadletPaths env.unitDirs fs)).2.1 s = some r)
    (hlu : env.listUnits (listBuildPre env (getAllQuadletPaths env.unitDirs fs)).2.2 = .ok sts) :
    ∃ out, (quadletList env opts fs).reports = some out ∧
      (⟨r.Name, r.Path, claimStatus sts s⟩ : ListQuadlet) ∈ out := by
  have hnd : ((listBuildPre env (getAllQuadletPaths env.unitDirs fs)).2.1.map Prod.fst).Nodup :=
    listBuildPreLoop_nodup env _ _ (by simp)
  have hmem2 := listReconcile_mem sts _
    ((listBuildPre env (getAllQuadletPaths env.unitDirs fs)).1) s r hmem hnd
  simp only [quadletList, hconn, hfilters, buildFilterMap, buildFilterFuncs, hlu,
    listApplyFilters_nil]
  exact ⟨_, rfl, hmem2⟩

/-- Environment for the C8 witness: `b.container` parses to service
`b.service`, which systemd reports loaded and active/running. -/
def envC8 : Env := { defaultEnv with
  parseUnitFile := fun p =>
    if p = "/etc/containers/systemd/b.container" then .ok "unitB" else .error "bad ini"
  getUnitServiceName := fun u => if u = "unitB" then .ok "b" else .error "no name"
  listUnits := fun _ => .ok [⟨"b.service", "loaded", "active", "running"⟩] }

/-- Witness for claim C8 at a concrete input. -/
theorem c8_witness :
    ∃ out, (quadletList envC8 ⟨[]⟩ fsC1).reports = some out ∧
      (⟨"b.container", "/etc/containers/systemd/b.container",
        claimStatus [⟨"b.service", "loaded", "active", "running"⟩] "b.service"⟩ :
          ListQuadlet) ∈ out := by
  have h := c8_status_determined_by_batch_query envC8 ⟨[]⟩ fsC1 "b.service"
    ⟨"b.container", "/etc/containers/systemd/b.container", ""⟩
    [⟨"b.service", "loaded", "active", "running"⟩]
    (by decide) rfl (by decide) (by decide)
  exact h

/-! ### Lemmas about QuadletRemove (claims C6 and C7) -/

/-- The running-refusal message of line 500. -/
def runningMsg (n : String) : GoError :=
  "quadlet " ++ n ++ " is running and force is not set, refusing to remove"

theorem list_contains_iff (l : List String) (x : String) :
    l.contains x = true ↔ x ∈ l :=
  List.elem_iff

theorem mapDel_find_self {β : Type} (m : List (String × β)) (q : String) :
    mapFind (mapDel m q) q = none := by
  induction m with
  | nil => rfl
  | cons e rest ih =>
    obtain ⟨k', v'⟩ := e
    by_cases hq : k' = q
    · simp [mapDel, hq, ih]
    · simp [mapDel, hq, mapFind_cons, ih]

theorem isExtSupported_ne_empty (n : String) (h : isExtSupported n = true) : n ≠ "" := by
  intro hh
  subst hh
  exact absurd h (by decide)

theorem getQuadletByName_ext (dirs : List String) (fs : Fs) (n p : String)
    (h : getQuadletByName dirs fs n = .ok p) : isExtSupported n = true := by
  by_cases he : isExtSupported n = true
  · exact he
  · rw [getQuadletByName] at h
    rw [Bool.not_eq_true] at he
    rw [he] at h
    exact Except.noConfusion h

theorem findQuadletInDirs_exists (fs : Fs) (n : String) :
    ∀ dirs p, findQuadletInDirs fs n dirs = .ok p → (mapFind fs p).isSome := by
  intro dirs
  induction dirs with
  | nil => intro p h; exact Except.noConfusion h
  | cons d rest ih =>
    intro p h
    simp only [findQuadletInDirs] at h
    cases hf : mapFind fs (goJoin d n) with
    | some e =>
      rw [hf] at h
      obtain rfl : goJoin d n = p := by injection h
      rw [hf]
      rfl
    | none =>
      rw [hf] at h
      exact ih p h

theorem getQuadletByName_exists (dirs : List String) (fs : Fs) (n p : String)
    (h : getQuadletByName dirs fs n = .ok p) : (mapFind fs p).isSome := by
  rw [getQuadletByName, getQuadletByName_ext dirs fs n p h] at h
  exact findQuadletInDirs_exists fs n dirs p h

/-! Step equations for the resolution loop (lines 457-480). -/

theorem resolveStep_err_ignore (env : Env) (opts : QuadletRemoveOptions) (fs : Fs)
    (q : String) (rest : List String) (st : RState) (e : GoError)
    (hq : getQuadletByName env.unitDirs fs q = .error e)
    (hio : (opts.Ignore || opts.All) = true) :
    removeResolveLoop env opts fs (q :: rest) st =
      removeResolveLoop env opts fs rest
        ⟨st.paths, st.names, st.map, ⟨st.rep.Removed ++ [q], st.rep.Errors⟩⟩ := by
  simp [removeResolveLoop, hq, hio]

theorem resolveStep_err_record (env : Env) (opts : QuadletRemoveOptions) (fs : Fs)
    (q : String) (rest : List String) (st : RState) (e : GoError)
    (hq : getQuadletByName env.unitDirs fs q = .error e)
    (hio : (opts.Ignore || opts.All) = false) :
    removeResolveLoop env opts fs (q :: rest) st =
      removeResolveLoop env opts fs rest
        ⟨st.paths, st.names, st.map, ⟨st.rep.Removed, mapSet st.rep.Errors q e⟩⟩ := by
  simp [removeResolveLoop, hq, hio]

theorem resolveStep_parse_err (env : Env) (opts : QuadletRemoveOptions) (fs : Fs)
    (q : String) (rest : List String) (st : RState) (pq : String) (e : GoError)
    (hq : getQuadletByName env.unitDirs fs q = .ok pq)
    (hsq : getQuadletServiceName env pq = .error e) :
    removeResolveLoop env opts fs (q :: rest) st =
      removeResolveLoop env opts fs rest
        ⟨st.paths ++ [pq], st.names, st.map, ⟨st.rep.Removed, mapSet st.rep.Errors q e⟩⟩ := by
  simp [removeResolveLoop, hq, hsq]

theorem resolveStep_ok (env : Env) (opts : QuadletRemoveOptions) (fs : Fs)
    (q : String) (rest : List String) (st : RState) (pq sq : String)
    (hq : getQuadletByName env.unitDirs fs q = .ok pq)
    (hsq : getQuadletServiceName env pq = .ok sq) :
    removeResolveLoop env opts fs (q :: rest) st =
      removeResolveLoop env opts fs rest
        ⟨st.paths ++ [pq], st.names ++ [sq], mapSet st.map sq q, st.rep⟩ := by
  simp [removeResolveLoop, hq, hsq]

/-- Case split on one resolution-loop step, as one reusable recursion
scheme: every step is one of the four step equations. -/
theorem resolveStep_cases (env : Env) (opts : QuadletRemoveOptions) (fs : Fs)
    (q : String) (rest : List String) (st : RState) :
    (∃ e, getQuadletByName env.unitDirs fs q = .error e ∧
      (opts.Ignore || opts.All) = true ∧
      removeResolveLoop env opts fs (q :: rest) st =
        removeResolveLoop env opts fs rest
          ⟨st.paths, st.names, st.map, ⟨st.rep.Removed ++ [q], st.rep.Errors⟩⟩) ∨
    (∃ e, getQuadletByName env.unitDirs fs q = .error e ∧
      (opts.Ignore || opts.All) = false ∧
      removeResolveLoop env opts fs (q :: rest) st =
        removeResolveLoop env opts fs rest
          ⟨st.paths, st.names, st.map, ⟨st.rep.Removed, mapSet st.rep.Errors q e⟩⟩) ∨
    (∃ pq e, getQuadletByName env.unitDirs fs q = .ok pq ∧
      getQuadletServiceName env pq = .error e ∧
      removeResolveLoop env opts fs (q :: rest) st =
        removeResolveLoop env opts fs rest
          ⟨st.paths ++ [pq], st.names, st.map, ⟨st.rep.Removed, mapSet st.rep.Errors q e⟩⟩) ∨
    (∃ pq sq, getQuadletByName env.unitDirs fs q = .ok pq ∧
      getQuadletServiceName env pq = .ok sq ∧
      removeResolveLoop env opts fs (q :: rest) st =
        removeResolveLoop env opts fs rest
          ⟨st.paths ++ [pq], st.names ++ [sq], mapSet st.map sq q, st.rep⟩) := by
  cases hq : getQuadletByName env.unitDirs fs q with
  | error e =>
    cases hio : (opts.Ignore || opts.All) with
    | true => exact Or.inl ⟨e, rfl, rfl, resolveStep_err_ignore env opts fs q rest st e hq hio⟩
    | false =>
      exact Or.inr (Or.inl ⟨e, rfl, rfl, resolveStep_err_record env opts fs q rest st e hq hio⟩)
  | ok pq =>
    cases hsq : getQuadletServiceName env pq with
    | error e =>
      exact Or.inr (Or.inr (Or.inl
        ⟨pq, e, rfl, hsq, resolveStep_parse_err env opts fs q rest st pq e hq hsq⟩))
    | ok sq =>
      exact Or.inr (Or.inr (Or.inr
        ⟨pq, sq, rfl, hsq, resolveStep_ok env opts fs q rest st pq sq hq hsq⟩))

/-- If `n` resolves and parses, the resolution loop never records an
error for `n`. -/
theorem resolveLoop_errors_none (env : Env) (opts : QuadletRemoveOptions) (fs : Fs)
    (n p s : String)
    (hres : getQuadletByName env.unitDirs fs n = .ok p)
    (hsvc : getQuadletServiceName env p = .ok s) :
    ∀ (l : List String) (st : RState), mapFind st.rep.Errors n = none →
      mapFind (removeResolveLoop env opts fs l st).rep.Errors n = none := by
  intro l
  induction l with
  | nil => intro st h; exact h
  | cons q rest ih =>
    intro st h
    rcases resolveStep_cases env opts fs q rest st with
      ⟨e, hq, hio, hstep⟩ | ⟨e, hq, hio, hstep⟩ | ⟨pq, e, hq, hsq, hstep⟩ | ⟨pq, sq, hq, hsq, hstep⟩
    · rw [hstep]; exact ih _ h
    · rw [hstep]
      have hqn : n ≠ q := by
        intro hh
        rw [← hh, hres] at hq
        exact Except.noConfusion hq
      refine ih _ ?_
      rw [mapFind_set_ne _ _ _ _ hqn]
      exact h
    · rw [hstep]
      have hqn : n ≠ q := by
        intro hh
        rw [← hh, hres] at hq
        obtain rfl : p = pq := by injection hq
        rw [hsvc] at hsq
        exact Except.noConfusion hsq
      refine ih _ ?_
      rw [mapFind_set_ne _ _ _ _ hqn]
      exact h
    · rw [hstep]; exact ih _ h

/-- If `n` resolves, the resolution loop never marks `n` removed. -/
theorem resolveLoop_removed_not (env : Env) (opts : QuadletRemoveOptions) (fs : Fs)
    (n p : String) (hres : getQuadletByName env.unitDirs fs n = .ok p) :
    ∀ (l : List String) (st : RState), n ∉ st.rep.Removed →
      n ∉ (removeResolveLoop env opts fs l st).rep.Removed := by
  intro l
  induction l with
  | nil => intro st h; exact h
  | cons q rest ih =>
    intro st h
    rcases resolveStep_cases env opts fs q rest st with
      ⟨e, hq, hio, hstep⟩ | ⟨e, hq, hio, hstep⟩ | ⟨pq, e, hq, hsq, hstep⟩ | ⟨pq, sq, hq, hsq, hstep⟩
    · rw [hstep]
      refine ih _ ?_
      intro hmem
      rcases List.mem_append.mp hmem with hmem | hmem
      · exact h hmem
      · rw [List.mem_singleton] at hmem
        rw [← hmem, hres] at hq
        exact Except.noConfusion hq
    · rw [hstep]; exact ih _ h
    · rw [hstep]; exact ih _ h
    · rw [hstep]; exact ih _ h

/-- Names accumulated by the resolution loop are never dropped. -/
theorem resolveLoop_names_mono (env : Env) (opts : QuadletRemoveOptions) (fs : Fs) :
    ∀ (l : List String) (st : RState) (x : String),
      x ∈ st.names → x ∈ (removeResolveLoop env opts fs l st).names := by
  intro l
  induction l with
  | nil => intro st x h; exact h
  | cons q rest ih =>
    intro st x h
    rcases resolveStep_cases env opts fs q rest st with
      ⟨e, hq, hio, hstep⟩ | ⟨e, hq, hio, hstep⟩ | ⟨pq, e, hq, hsq, hstep⟩ | ⟨pq, sq, hq, hsq, hstep⟩ <;>
      rw [hstep]
    · exact ih _ x h
    · exact ih _ x h
    · exact ih _ x h
    · exact ih _ x (List.mem_append_left _ h)

/-- A quadlet that resolves and parses puts its service name into the
batch query list. -/
theorem resolveLoop_names_mem (env : Env) (opts : QuadletRemoveOptions) (fs : Fs)
    (n p s : String)
    (hres : getQuadletByName env.unitDirs fs n = .ok p)
    (hsvc : getQuadletServiceName env p = .ok s) :
    ∀ (l : List String) (st : RState), n ∈ l →
      s ∈ (removeResolveLoop env opts fs l st).names := by
  intro l
  induction l with
  | nil => intro st h; exact absurd h (List.not_mem_nil n)
  | cons q rest ih =>
    intro st hq'
    rcases List.mem_cons.mp hq' with hq' | hq'
    · subst hq'
      rcases resolveStep_cases env opts fs n rest st with
        ⟨e, hq, hio, hstep⟩ | ⟨e, hq, hio, hstep⟩ | ⟨pq, e, hq, hsq, hstep⟩ | ⟨pq, sq, hq, hsq, hstep⟩
      · rw [hres] at hq; exact Except.noConfusion hq
      · rw [hres] at hq; exact Except.noConfusion hq
      · rw [hres] at hq
        obtain rfl : p = pq := by injection hq
        rw [hsvc] at hsq
        exact Except.noConfusion hsq
      · rw [hres] at hq
        obtain rfl : p = pq := by injection hq
        rw [hsvc] at hsq
        obtain rfl : s = sq := by injection hsq
        rw [hstep]
        exact resolveLoop_names_mono env opts fs rest _ s
          (List.mem_append_right _ (List.mem_singleton.mpr rfl))
    · rcases resolveStep_cases env opts fs q rest st with
        ⟨e, hq, hio, hstep⟩ | ⟨e, hq, hio, hstep⟩ | ⟨pq, e, hq, hsq, hstep⟩ | ⟨pq, sq, hq, hsq, hstep⟩ <;>
        rw [hstep] <;> exact ih _ hq'

/-- Paths accumulated by the resolution loop are never dropped. -/
theorem resolveLoop_paths_mono (env : Env) (opts : QuadletRemoveOptions) (fs : Fs) :
    ∀ (l : List String) (st : RState) (x : String),
      x ∈ st.paths → x ∈ (removeResolveLoop env opts fs l st).paths := by
  intro l
  induction l with
  | nil => intro st x h; exact h
  | cons q rest ih =>
    intro st x h
    rcases resolveStep_cases env opts fs q rest st with
      ⟨e, hq, hio, hstep⟩ | ⟨e, hq, hio, hstep⟩ | ⟨pq, e, hq, hsq, hstep⟩ | ⟨pq, sq, hq, hsq, hstep⟩ <;>
      rw [hstep]
    · exact ih _ x h
    · exact ih _ x h
    · exact ih _ x (List.mem_append_left _ h)
    · exact ih _ x (List.mem_append_left _ h)

/-- The path of a resolving quadlet is collected — whether or not its
service name can be derived (lines 470-476: the path is appended before
the derivation). -/
theorem resolveLoop_paths_mem (env : Env) (opts : QuadletRemoveOptions) (fs : Fs)
    (n p : String) (hres : getQuadletByName env.unitDirs fs n = .ok p) :
    ∀ (l : List String) (st : RState), n ∈ l →
      p ∈ (removeResolveLoop env opts fs l st).paths := by
  intro l
  induction l with
  | nil => intro st h; exact absurd h (List.not_mem_nil n)
  | cons q rest ih =>
    intro st hq'
    rcases List.mem_cons.mp hq' with hq' | hq'
    · subst hq'
      rcases resolveStep_cases env opts fs n rest st with
        ⟨e, hq, hio, hstep⟩ | ⟨e, hq, hio, hstep⟩ | ⟨pq, e, hq, hsq, hstep⟩ | ⟨pq, sq, hq, hsq, hstep⟩
      · rw [hres] at hq; exact Except.noConfusion hq
      · rw [hres] at hq; exact Except.noConfusion hq
      · rw [hres] at hq
        obtain rfl : p = pq := by injection hq
        rw [hstep]
        exact resolveLoop_paths_mono env opts fs rest _ p
          (List.mem_append_right _ (List.mem_singleton.mpr rfl))
      · rw [hres] at hq
        obtain rfl : p = pq := by injection hq
        rw [hstep]
        exact resolveLoop_paths_mono env opts fs rest _ p
          (List.mem_append_right _ (List.mem_singleton.mpr rfl))
    · rcases resolveStep_cases env opts fs q rest st with
        ⟨e, hq, hio, hstep⟩ | ⟨e, hq, hio, hstep⟩ | ⟨pq, e, hq, hsq, hstep⟩ | ⟨pq, sq, hq, hsq, hstep⟩ <;>
        rw [hstep] <;> exact ih _ hq'

/-- When `n` is the only requested quadlet whose derived service is `s`,
the service-to-quadlet map finally binds `s` to `n`. -/
theorem resolveLoop_map_val (env : Env) (opts : QuadletRemoveOptions) (fs : Fs)
    (n p s : String)
    (hres : getQuadletByName env.unitDirs fs n = .ok p)
    (hsvc : getQuadletServiceName env p = .ok s) :
    ∀ (l : List String) (st : RState),
      (∀ m ∈ l, ∀ pm, getQuadletByName env.unitDirs fs m = .ok pm →
        getQuadletServiceName env pm = .ok s → m = n) →
      (mapFind st.map s = none ∨ mapFind st.map s = some n) →
      (n ∈ l ∨ mapFind st.map s = some n) →
      mapFind (removeResolveLoop env opts fs l st).map s = some n := by
  intro l
  induction l with
  | nil =>
    intro st _ _ hwit
    rcases hwit with h | h
    · exact absurd h (List.not_mem_nil n)
    · exact h
  | cons q rest ih =>
    intro st hu hinv hwit
    have hu' : ∀ m ∈ rest, ∀ pm, getQuadletByName env.unitDirs fs m = .ok pm →
        getQuadletServiceName env pm = .ok s → m = n :=
      fun m hm => hu m (List.mem_cons_of_mem _ hm)
    rcases resolveStep_cases env opts fs q rest st with
      ⟨e, hq, hio, hstep⟩ | ⟨e, hq, hio, hstep⟩ | ⟨pq, e, hq, hsq, hstep⟩ | ⟨pq, sq, hq, hsq, hstep⟩
    · rw [hstep]
      refine ih _ hu' hinv ?_
      rcases hwit with hn | hn
      · rcases List.mem_cons.mp hn with hn | hn
        · rw [← hn, hres] at hq
          exact Except.noConfusion hq
        · exact Or.inl hn
      · exact Or.inr hn
    · rw [hstep]
      refine ih _ hu' hinv ?_
      rcases hwit with hn | hn
      · rcases List.mem_cons.mp hn with hn | hn
        · rw [← hn, hres] at hq
          exact Except.noConfusion hq
        · exact Or.inl hn
      · exact Or.inr hn
    · rw [hstep]
      refine ih _ hu' hinv ?_
      rcases hwit with hn | hn
      · rcases List.mem_cons.mp hn with hn | hn
        · rw [← hn, hres] at hq
          obtain rfl : p = pq := by injection hq
          rw [hsvc] at hsq
          exact Except.noConfusion hsq
        · exact Or.inl hn
      · exact Or.inr hn
    · rw [hstep]
      by_cases hsq' : sq = s
      · subst hsq'
        have hqn : q = n := hu q (List.mem_cons_self _ _) pq hq hsq
        subst hqn
        exact ih _ hu' (Or.inr (mapFind_set_self _ _ _)) (Or.inr (mapFind_set_self _ _ _))
      · have hpres : mapFind (mapSet st.map sq q) s = mapFind st.map s :=
          mapFind_set_ne _ _ _ _ (fun hh => hsq' hh.symm)
        refine ih _ hu' ?_ ?_
        · rw [hpres]; exact hinv
        · rcases hwit with hn | hn
          · rcases List.mem_cons.mp hn with hn | hn
            · subst hn
              rw [hres] at hq
              obtain rfl : p = pq := by injection hq
              rw [hsvc] at hsq
              obtain rfl : s = sq := by injection hsq
              exact absurd rfl hsq'
            · exact Or.inl hn
          · rw [hpres]; exact Or.inr hn

/-- When `n`'s unit file fails to parse, no quadlet name in the map's
bindings is `n`. -/
theorem resolveLoop_map_noval (env : Env) (opts : QuadletRemoveOptions) (fs : Fs)
    (n p : String) (em : GoError)
    (hres : getQuadletByName env.unitDirs fs n = .ok p)
    (hparse : getQuadletServiceName env p = .error em) :
    ∀ (l : List String) (st : RState),
      (∀ nm, mapFind st.map nm ≠ some n) →
      ∀ nm, mapFind (removeResolveLoop env opts fs l st).map nm ≠ some n := by
  intro l
  induction l with
  | nil => intro st h; exact h
  | cons q rest ih =>
    intro st h
    rcases resolveStep_cases env opts fs q rest st with
      ⟨e, hq, hio, hstep⟩ | ⟨e, hq, hio, hstep⟩ | ⟨pq, e, hq, hsq, hstep⟩ | ⟨pq, sq, hq, hsq, hstep⟩
    · rw [hstep]; exact ih _ h
    · rw [hstep]; exact ih _ h
    · rw [hstep]; exact ih _ h
    · rw [hstep]
      refine ih _ ?_
      have hqn : q ≠ n := by
        intro hh
        rw [hh, hres] at hq
        obtain rfl : p = pq := by injection hq
        rw [hparse] at hsq
        exact Except.noConfusion hsq
      intro nm hbad
      rcases mapFind_set_eq_some _ _ _ _ _ hbad with ⟨_, hqv⟩ | hold
      · exact hqn hqv.symm
      · exact h nm hold

/-- When `n` resolves but its unit file fails to parse with message
`em`, the resolution loop finally records exactly `em` for `n`. -/
theorem resolveLoop_errors_val (env : Env) (opts : QuadletRemoveOptions) (fs : Fs)
    (n p : String) (em : GoError)
    (hres : getQuadletByName env.unitDirs fs n = .ok p)
    (hparse : getQuadletServiceName env p = .error em) :
    ∀ (l : List String) (st : RState),
      (mapFind st.rep.Errors n = none ∨ mapFind st.rep.Errors n = some em) →
      (n ∈ l ∨ mapFind st.rep.Errors n = some em) →
      mapFind (removeResolveLoop env opts fs l st).rep.Errors n = some em := by
  intro l
  induction l with
  | nil =>
    intro st _ hwit
    rcases hwit with h | h
    · exact absurd h (List.not_mem_nil n)
    · exact h
  | cons q rest ih =>
    intro st hinv hwit
    rcases resolveStep_cases env opts fs q rest st with
      ⟨e, hq, hio, hstep⟩ | ⟨e, hq, hio, hstep⟩ | ⟨pq, e, hq, hsq, hstep⟩ | ⟨pq, sq, hq, hsq, hstep⟩
    · rw [hstep]
      refine ih _ hinv ?_
      rcases hwit with hn | hn
      · rcases List.mem_cons.mp hn with hn | hn
        · rw [← hn, hres] at hq
          exact Except.noConfusion hq
        · exact Or.inl hn
      · exact Or.inr hn
    · rw [hstep]
      have hqn : q ≠ n := by
        intro hh
        rw [hh, hres] at hq
        exact Except.noConfusion hq
      have hpres : mapFind (mapSet st.rep.Errors q e) n = mapFind st.rep.Errors n :=
        mapFind_set_ne _ _ _ _ (Ne.symm hqn)
      refine ih _ ?_ ?_
      · rw [hpres]; exact hinv
      · rcases hwit with hn | hn
        · rcases List.mem_cons.mp hn with hn | hn
          · exact absurd hn.symm hqn
          · exact Or.inl hn
        · rw [hpres]; exact Or.inr hn
    · rw [hstep]
      by_cases hqn : q = n
      · subst hqn
        rw [hres] at hq
        obtain rfl : p = pq := by injection hq
        rw [hparse] at hsq
        obtain rfl : em = e := by injection hsq
        exact ih _ (Or.inr (mapFind_set_self _ _ _)) (Or.inr (mapFind_set_self _ _ _))
      · have hpres : mapFind (mapSet st.rep.Errors q e) n = mapFind st.rep.Errors n :=
          mapFind_set_ne _ _ _ _ (Ne.symm hqn)
        refine ih _ ?_ ?_
        · rw [hpres]; exact hinv
        · rcases hwit with hn | hn
          · rcases List.mem_cons.mp hn with hn | hn
            · exact absurd hn.symm hqn
            · exact Or.inl hn
          · rw [hpres]; exact Or.inr hn
    · rw [hstep]
      refine ih _ hinv ?_
      rcases hwit with hn | hn
      · rcases List.mem_cons.mp hn with hn | hn
        · rw [← hn, hres] at hq
          obtain rfl : p = pq := by injection hq
          rw [hparse] at hsq
          exact Except.noConfusion hsq
        · exact Or.inl hn
      · exact Or.inr hn

/-! Step equations and invariants of the status loop (lines 490-519). -/

theorem statusStep_notloaded (env : Env) (opts : QuadletRemoveOptions)
    (map : List (String × String)) (u : UnitStatus) (rest : List UnitStatus) (st : SState)
    (hld : u.LoadState ≠ "loaded") :
    removeStatusLoop env opts map (u :: rest) st = removeStatusLoop env opts map rest st := by
  simp [removeStatusLoop, hld]

theorem statusStep_notactive (env : Env) (opts : QuadletRemoveOptions)
    (map : List (String × String)) (u : UnitStatus) (rest : List UnitStatus) (st : SState)
    (hld : u.LoadState = "loaded") (hact : u.ActiveState ≠ "active") :
    removeStatusLoop env opts map (u :: rest) st =
      removeStatusLoop env opts map rest ⟨st.rep, st.running, true, st.stopAttempts⟩ := by
  simp [removeStatusLoop, hld, hact]

theorem statusStep_noforce (env : Env) (opts : QuadletRemoveOptions)
    (map : List (String × String)) (u : UnitStatus) (rest : List UnitStatus) (st : SState)
    (hld : u.LoadState = "loaded") (hact : u.ActiveState = "active")
    (hforce : opts.Force = false) :
    removeStatusLoop env opts map (u :: rest) st =
      removeStatusLoop env opts map rest
        ⟨⟨st.rep.Removed, mapSet st.rep.Errors (mapFindD map u.Name "")
            (runningMsg (mapFindD map u.Name ""))⟩,
          st.running ++ [mapFindD map u.Name ""], true, st.stopAttempts⟩ := by
  simp [removeStatusLoop, hld, hact, hforce, runningMsg]

theorem statusStep_stop_err (env : Env) (opts : QuadletRemoveOptions)
    (map : List (String × String)) (u : UnitStatus) (rest : List UnitStatus) (st : SState)
    (e : GoError)
    (hld : u.LoadState = "loaded") (hact : u.ActiveState = "active")
    (hforce : opts.Force = true) (hstop : env.stopUnit u.Name = .error e) :
    removeStatusLoop env opts map (u :: rest) st =
      removeStatusLoop env opts map rest
        ⟨⟨st.rep.Removed, mapSet st.rep.Errors (mapFindD map u.Name "")
            ("stopping quadlet " ++ mapFindD map u.Name "" ++ ": " ++ e)⟩,
          st.running ++ [mapFindD map u.Name ""], true,
          st.stopAttempts ++ [mapFindD map u.Name ""]⟩ := by
  simp [removeStatusLoop, hld, hact, hforce, hstop]

theorem statusStep_stop_bad (env : Env) (opts : QuadletRemoveOptions)
    (map : List (String × String)) (u : UnitStatus) (rest : List UnitStatus) (st : SState)
    (hld : u.LoadState = "loaded") (hact : u.ActiveState = "active")
    (hforce : opts.Force = true) (hstop : env.stopUnit u.Name = .ok ())
    (hbad : env.stopResult u.Name ≠ "done" ∧ env.stopResult u.Name ≠ "skipped") :
    removeStatusLoop env opts map (u :: rest) st =
      removeStatusLoop env opts map rest
        ⟨⟨st.rep.Removed, mapSet st.rep.Errors (mapFindD map u.Name "")
            ("unable to stop quadlet " ++ mapFindD map u.Name "" ++ ": " ++
              env.stopResult u.Name)⟩,
          st.running ++ [mapFindD map u.Name ""], true,
          st.stopAttempts ++ [mapFindD map u.Name ""]⟩ := by
  simp [removeStatusLoop, hld, hact, hforce, hstop, hbad]

theorem statusStep_stop_ok (env : Env) (opts : QuadletRemoveOptions)
    (map : List (String × String)) (u : UnitStatus) (rest : List UnitStatus) (st : SState)
    (hld : u.LoadState = "loaded") (hact : u.ActiveState = "active")
    (hforce : opts.Force = true) (hstop : env.stopUnit u.Name = .ok ())
    (hgood : ¬ (env.stopResult u.Name ≠ "done" ∧ env.stopResult u.Name ≠ "skipped")) :
    removeStatusLoop env opts map (u :: rest) st =
      removeStatusLoop env opts map rest
        ⟨st.rep, st.running, true, st.stopAttempts ++ [mapFindD map u.Name ""]⟩ := by
  simp [removeStatusLoop, hld, hact, hforce, hstop, hgood]

/-- Every status-loop step only ever touches the error key, running list,
and stop log of the quadlet mapped from the unit's name; `Removed` is
never touched. -/
theorem statusStep_shape (env : Env) (opts : QuadletRemoveOptions)
    (map : List (String × String)) (u : UnitStatus) (rest : List UnitStatus) (st : SState) :
    ∃ st', removeStatusLoop env opts map (u :: rest) st = removeStatusLoop env opts map rest st' ∧
      st'.rep.Removed = st.rep.Removed ∧
      (∀ k, k ≠ mapFindD map u.Name "" →
        mapFind st'.rep.Errors k = mapFind st.rep.Errors k) ∧
      (∀ x, x ∈ st'.running → x ∈ st.running ∨ x = mapFindD map u.Name "") ∧
      (∀ x, x ∈ st'.stopAttempts → x ∈ st.stopAttempts ∨ x = mapFindD map u.Name "") := by
  by_cases hld : u.LoadState = "loaded"
  · by_cases hact : u.ActiveState = "active"
    · cases hforce : opts.Force with
      | false =>
        refine ⟨_, statusStep_noforce env opts map u rest st hld hact hforce, rfl, ?_, ?_, ?_⟩
        · intro k hk
          exact mapFind_set_ne _ _ _ _ hk
        · intro x hx
          rcases List.mem_append.mp hx with hx | hx
          · exact Or.inl hx
          · exact Or.inr (List.mem_singleton.mp hx)
        · intro x hx
          exact Or.inl hx
      | true =>
        cases hstop : env.stopUnit u.Name with
        | error e =>
          refine ⟨_, statusStep_stop_err env opts map u rest st e hld hact hforce hstop,
            rfl, ?_, ?_, ?_⟩
          · intro k hk
            exact mapFind_set_ne _ _ _ _ hk
          · intro x hx
            rcases List.mem_append.mp hx with hx | hx
            · exact Or.inl hx
            · exact Or.inr (List.mem_singleton.mp hx)
          · intro x hx
            rcases List.mem_append.mp hx with hx | hx
            · exact Or.inl hx
            · exact Or.inr (List.mem_singleton.mp hx)
        | ok uu =>
          obtain rfl : uu = () := rfl
          by_cases hbad : env.stopResult u.Name ≠ "done" ∧ env.stopResult u.Name ≠ "skipped"
          · refine ⟨_, statusStep_stop_bad env opts map u rest st hld hact hforce hstop hbad,
              rfl, ?_, ?_, ?_⟩
            · intro k hk
              exact mapFind_set_ne _ _ _ _ hk
            · intro x hx
              rcases List.mem_append.mp hx with hx | hx
              · exact Or.inl hx
              · exact Or.inr (List.mem_singleton.mp hx)
            · intro x hx
              rcases List.mem_append.mp hx with hx | hx
              · exact Or.inl hx
              · exact Or.inr (List.mem_singleton.mp hx)
          · refine ⟨_, statusStep_stop_ok env opts map u rest st hld hact hforce hstop hbad,
              rfl, fun k _ => rfl, fun x hx => Or.inl hx, ?_⟩
            intro x hx
            rcases List.mem_append.mp hx with hx | hx
            · exact Or.inl hx
            · exact Or.inr (List.mem_singleton.mp hx)
    · exact ⟨_, statusStep_notactive env opts map u rest st hld hact, rfl,
        fun k _ => rfl, fun x hx => Or.inl hx, fun x hx => Or.inl hx⟩
  · exact ⟨_, statusStep_notloaded env opts map u rest st hld, rfl,
      fun k _ => rfl, fun x hx => Or.inl hx, fun x hx => Or.inl hx⟩

/-- The status loop never touches `Removed`. -/
theorem statusLoop_removed_eq (env : Env) (opts : QuadletRemoveOptions)
    (map : List (String × String)) :
    ∀ (sts : List UnitStatus) (st : SState),
      (removeStatusLoop env opts map sts st).rep.Removed = st.rep.Removed := by
  intro sts
  induction sts with
  | nil => intro st; rfl
  | cons u rest ih =>
    intro st
    obtain ⟨st', hstep, hrem, _, _, _⟩ := statusStep_shape env opts map u rest st
    rw [hstep, ih st', hrem]

/-- When no map binding carries quadlet name `n` (and `n` is not the
zero value), the status loop leaves `n`'s error entry alone and never
puts `n` into the running list or the stop log. -/
theorem statusLoop_untouched (env : Env) (opts : QuadletRemoveOptions)
    (map : List (String × String)) (n : String)
    (hval : ∀ nm, mapFind map nm ≠ some n) (hne : n ≠ "") :
    ∀ (sts : List UnitStatus) (st : SState),
      mapFind (removeStatusLoop env opts map sts st).rep.Errors n =
        mapFind st.rep.Errors n ∧
      (n ∈ (removeStatusLoop env opts map sts st).running → n ∈ st.running) ∧
      (n ∈ (removeStatusLoop env opts map sts st).stopAttempts → n ∈ st.stopAttempts) := by
  intro sts
  induction sts with
  | nil => intro st; exact ⟨rfl, fun h => h, fun h => h⟩
  | cons u rest ih =>
    intro st
    obtain ⟨st', hstep, _, herr, hrun, hstops⟩ := statusStep_shape env opts map u rest st
    have hqn : n ≠ mapFindD map u.Name "" := by
      intro hh
      rcases hf : mapFind map u.Name with hv | v
      · rw [mapFindD, hf] at hh
        exact hne hh
      · rw [mapFindD, hf] at hh
        simp only [Option.getD_some] at hh
        exact hval u.Name (hh ▸ hf)
    obtain ⟨ih1, ih2, ih3⟩ := ih st'
    rw [hstep]
    refine ⟨?_, ?_, ?_⟩
    · rw [ih1, herr n hqn]
    · intro hmem
      rcases hrun n (ih2 hmem) with h | h
      · exact h
      · exact absurd h hqn
    · intro hmem
      rcases hstops n (ih3 hmem) with h | h
      · exact h
      · exact absurd h hqn

/-- With force unset, once some returned unit for service `s` — mapped
to quadlet `n` — is loaded and active, the loop records the running
error for `n` and excludes `n`. -/
theorem statusLoop_noforce_written (env : Env) (opts : QuadletRemoveOptions)
    (map : List (String × String)) (s n : String)
    (hforce : opts.Force = false) (hq : mapFindD map s "" = n) :
    ∀ (sts : List UnitStatus) (st : SState),
      (mapFind st.rep.Errors n = none ∨ mapFind st.rep.Errors n = some (runningMsg n)) →
      ((∃ u ∈ sts, u.Name = s ∧ u.LoadState = "loaded" ∧ u.ActiveState = "active") ∨
        (mapFind st.rep.Errors n = some (runningMsg n) ∧ n ∈ st.running)) →
      mapFind (removeStatusLoop env opts map sts st).rep.Errors n = some (runningMsg n) ∧
      n ∈ (removeStatusLoop env opts map sts st).running := by
  intro sts
  induction sts with
  | nil =>
    intro st _ hwit
    rcases hwit with ⟨u, hu, _⟩ | ⟨h1, h2⟩
    · exact absurd hu (List.not_mem_nil u)
    · exact ⟨h1, h2⟩
  | cons u rest ih =>
    intro st hinv hwit
    by_cases hld : u.LoadState = "loaded"
    · by_cases hact : u.ActiveState = "active"
      · rw [statusStep_noforce env opts map u rest st hld hact hforce]
        by_cases hqn : mapFindD map u.Name "" = n
        · rw [hqn]
          refine ih _ (Or.inr (mapFind_set_self _ _ _))
            (Or.inr ⟨mapFind_set_self _ _ _, List.mem_append_right _ (List.mem_singleton.mpr rfl)⟩)
        · have hpres : mapFind (mapSet st.rep.Errors (mapFindD map u.Name "")
              (runningMsg (mapFindD map u.Name ""))) n = mapFind st.rep.Errors n :=
            mapFind_set_ne _ _ _ _ (fun hh => hqn hh.symm)
          refine ih _ ?_ ?_
          · rw [hpres]; exact hinv
          · rcases hwit with ⟨u', hu', hname, hprops⟩ | ⟨h1, h2⟩
            · rcases List.mem_cons.mp hu' with hu' | hu'
              · subst hu'
                rw [hname, hq] at hqn
                exact absurd rfl hqn
              · exact Or.inl ⟨u', hu', hname, hprops⟩
            · refine Or.inr ⟨?_, List.mem_append_left _ h2⟩
              rw [hpres]; exact h1
      · rw [statusStep_notactive env opts map u rest st hld hact]
        refine ih _ hinv ?_
        rcases hwit with ⟨u', hu', hname, hld', hact'⟩ | ⟨h1, h2⟩
        · rcases List.mem_cons.mp hu' with hu' | hu'
          · subst hu'
            exact absurd hact' hact
          · exact Or.inl ⟨u', hu', hname, hld', hact'⟩
        · exact Or.inr ⟨h1, h2⟩
    · rw [statusStep_notloaded env opts map u rest st hld]
      refine ih _ hinv ?_
      rcases hwit with ⟨u', hu', hname, hld', hact'⟩ | ⟨h1, h2⟩
      · rcases List.mem_cons.mp hu' with hu' | hu'
        · subst hu'
          exact absurd hld' hld
        · exact Or.inl ⟨u', hu', hname, hld', hact'⟩
      · exact Or.inr ⟨h1, h2⟩

/-! Lemmas about the deletion loop (lines 523-537). -/

theorem deleteStep_skip (running : List String) (p : String) (rest : List String)
    (fs : Fs) (rep : QuadletRemoveReport) (h : running.contains (goBase p) = true) :
    removeDeleteLoop running (p :: rest) fs rep = removeDeleteLoop running rest fs rep := by
  have hm : goBase p ∈ running := (list_contains_iff running (goBase p)).mp h
  simp [removeDeleteLoop, h, hm]

theorem deleteStep_del (running : List String) (p : String) (rest : List String)
    (fs : Fs) (rep : QuadletRemoveReport) (h : running.contains (goBase p) = false) :
    removeDeleteLoop running (p :: rest) fs rep =
      removeDeleteLoop running rest (fsDel fs p) ⟨rep.Removed ++ [goBase p], rep.Errors⟩ := by
  have hm : goBase p ∉ running := fun hmem => by
    rw [(list_contains_iff running (goBase p)).mpr hmem] at h
    exact Bool.noConfusion h
  simp [removeDeleteLoop, h, hm]

theorem contains_false_of_not_mem (l : List String) (x : String) (h : x ∉ l) :
    l.contains x = false := by
  cases hc : l.contains x with
  | false => rfl
  | true => exact absurd ((list_contains_iff l x).mp hc) h

/-- The deletion loop never touches the errors map (in this model
`os.Remove` never fails other than not-exist). -/
theorem deleteLoop_errors_eq (running : List String) :
    ∀ (paths : List String) (fs : Fs) (rep : QuadletRemoveReport),
      (removeDeleteLoop running paths fs rep).2.Errors = rep.Errors := by
  intro paths
  induction paths with
  | nil => intro fs rep; rfl
  | cons p rest ih =>
    intro fs rep
    cases hc : running.contains (goBase p) with
    | true => rw [deleteStep_skip running p rest fs rep hc, ih]
    | false => rw [deleteStep_del running p rest fs rep hc, ih]

/-- A path whose base name is excluded as running keeps its file. -/
theorem deleteLoop_excluded_preserved (running : List String) (p : String)
    (hmem : goBase p ∈ running) :
    ∀ (paths : List String) (fs : Fs) (rep : QuadletRemoveReport),
      mapFind (removeDeleteLoop running paths fs rep).1 p = mapFind fs p := by
  intro paths
  induction paths with
  | nil => intro fs rep; rfl
  | cons q rest ih =>
    intro fs rep
    cases hc : running.contains (goBase q) with
    | true => rw [deleteStep_skip running q rest fs rep hc, ih]
    | false =>
      rw [deleteStep_del running q rest fs rep hc, ih]
      have hqp : p ≠ q := by
        intro hh
        rw [← hh] at hc
        rw [(list_contains_iff running (goBase p)).mpr hmem] at hc
        exact Bool.noConfusion hc
      rw [fsDel]
      exact mapDel_find_ne fs p q hqp

/-- An excluded name is never appended to `Removed` by the deletion
loop. -/
theorem deleteLoop_removed_not (running : List String) (n : String) (hrun : n ∈ running) :
    ∀ (paths : List String) (fs : Fs) (rep : QuadletRemoveReport),
      n ∉ rep.Removed → n ∉ (removeDeleteLoop running paths fs rep).2.Removed := by
  intro paths
  induction paths with
  | nil => intro fs rep h; exact h
  | cons q rest ih =>
    intro fs rep h
    cases hc : running.contains (goBase q) with
    | true => rw [deleteStep_skip running q rest fs rep hc]; exact ih fs rep h
    | false =>
      rw [deleteStep_del running q rest fs rep hc]
      refine ih _ _ ?_
      intro hmem
      rcases List.mem_append.mp hmem with hmem | hmem
      · exact h hmem
      · rw [List.mem_singleton] at hmem
        rw [← hmem] at hc
        rw [(list_contains_iff running n).mpr hrun] at hc
        exact Bool.noConfusion hc

/-- Once deleted, a file stays deleted through the rest of the loop. -/
theorem deleteLoop_none_preserved (running : List String) (p : String) :
    ∀ (paths : List String) (fs : Fs) (rep : QuadletRemoveReport),
      mapFind fs p = none → mapFind (removeDeleteLoop running paths fs rep).1 p = none := by
  intro paths
  induction paths with
  | nil => intro fs rep h; exact h
  | cons q rest ih =>
    intro fs rep h
    cases hc : running.contains (goBase q) with
    | true => rw [deleteStep_skip running q rest fs rep hc]; exact ih fs rep h
    | false =>
      rw [deleteStep_del running q rest fs rep hc]
      refine ih _ _ ?_
      by_cases hpq : p = q
      · rw [hpq, fsDel]
        exact mapDel_find_self fs q
      · rw [fsDel, mapDel_find_ne fs p q hpq]
        exact h

/-- Names appended to `Removed` are never dropped by the loop. -/
theorem deleteLoop_removed_mono (running : List String) (x : String) :
    ∀ (paths : List String) (fs : Fs) (rep : QuadletRemoveReport),
      x ∈ rep.Removed → x ∈ (removeDeleteLoop running paths fs rep).2.Removed := by
  intro paths
  induction paths with
  | nil => intro fs rep h; exact h
  | cons q rest ih =>
    intro fs rep h
    cases hc : running.contains (goBase q) with
    | true => rw [deleteStep_skip running q rest fs rep hc]; exact ih fs rep h
    | false =>
      rw [deleteStep_del running q rest fs rep hc]
      exact ih _ _ (List.mem_append_left _ h)

/-- A collected path whose base name is not excluded gets its file
deleted and its base name appended to `Removed`. -/
theorem deleteLoop_deletes (running : List String) (p : String)
    (hnrun : goBase p ∉ running) :
    ∀ (paths : List String) (fs : Fs) (rep : QuadletRemoveReport), p ∈ paths →
      mapFind (removeDeleteLoop running paths fs rep).1 p = none ∧
      goBase p ∈ (removeDeleteLoop running paths fs rep).2.Removed := by
  intro paths
  induction paths with
  | nil => intro fs rep h; exact absurd h (List.not_mem_nil p)
  | cons q rest ih =>
    intro fs rep hmem
    rcases List.mem_cons.mp hmem with hpq | hmem
    · subst hpq
      rw [deleteStep_del running p rest fs rep (contains_false_of_not_mem running _ hnrun)]
      constructor
      · refine deleteLoop_none_preserved running p rest _ _ ?_
        rw [fsDel]
        exact mapDel_find_self fs p
      · exact deleteLoop_removed_mono running (goBase p) rest _ _
          (List.mem_append_right _ (List.mem_singleton.mpr rfl))
    · cases hc : running.contains (goBase q) with
      | true => rw [deleteStep_skip running q rest fs rep hc]; exact ih fs rep hmem
      | false => rw [deleteStep_del running q rest fs rep hc]; exact ih _ _ hmem

/-! Assembling a full `quadletRemove` run. -/

/-- Lines 490-547 given the status-query response: the status loop, the
delete loop, and the optional reload. -/
def removeAfterResolve (env : Env) (opts : QuadletRemoveOptions) (fs : Fs)
    (rst : RState) (sts : List UnitStatus) : RemoveOutcome :=
  let sst := removeStatusLoop env opts rst.map sts ⟨rst.rep, [], false, []⟩
  let dr := removeDeleteLoop sst.running rst.paths fs sst.rep
  if sst.needReload then
    match env.reload with
    | .error e => ⟨some dr.2, some ("reloading systemd: " ++ e), dr.1, sst.stopAttempts⟩
    | .ok _ => ⟨some dr.2, none, dr.1, sst.stopAttempts⟩
  else ⟨some dr.2, none, dr.1, sst.stopAttempts⟩

theorem quadletRemove_run (env : Env) (opts : QuadletRemoveOptions)
    (quadlets : List String) (fs : Fs) (sts : List UnitStatus)
    (hne : quadlets.isEmpty = false)
    (hconn : env.connect = .ok ())
    (hall : opts.All = false)
    (hnames :
      (removeResolveLoop env opts fs quadlets ⟨[], [], [], ⟨[], []⟩⟩).names.isEmpty = false)
    (hlu : env.listUnits
      (removeResolveLoop env opts fs quadlets ⟨[], [], [], ⟨[], []⟩⟩).names = .ok sts) :
    quadletRemove env opts quadlets fs =
      removeAfterResolve env opts fs
        (removeResolveLoop env opts fs quadlets ⟨[], [], [], ⟨[], []⟩⟩) sts := by
  simp [quadletRemove, removeAfterResolve, hne, hconn, hall, hnames, hlu]

theorem quadletRemove_run_nonames (env : Env) (opts : QuadletRemoveOptions)
    (quadlets : List String) (fs : Fs)
    (hne : quadlets.isEmpty = false)
    (hconn : env.connect = .ok ())
    (hall : opts.All = false)
    (hnames :
      (removeResolveLoop env opts fs quadlets ⟨[], [], [], ⟨[], []⟩⟩).names.isEmpty = true) :
    quadletRemove env opts quadlets fs =
      ⟨some (removeDeleteLoop []
          (removeResolveLoop env opts fs quadlets ⟨[], [], [], ⟨[], []⟩⟩).paths fs
          (removeResolveLoop env opts fs quadlets ⟨[], [], [], ⟨[], []⟩⟩).rep).2,
        none,
        (removeDeleteLoop []
          (removeResolveLoop env opts fs quadlets ⟨[], [], [], ⟨[], []⟩⟩).paths fs
          (removeResolveLoop env opts fs quadlets ⟨[], [], [], ⟨[], []⟩⟩).rep).1,
        []⟩ := by
  simp [quadletRemove, hne, hconn, hall, hnames]

theorem removeAfterResolve_cases (env : Env) (opts : QuadletRemoveOptions) (fs : Fs)
    (rst : RState) (sts : List UnitStatus) :
    ∃ e?, removeAfterResolve env opts fs rst sts =
      ⟨some (removeDeleteLoop
          (removeStatusLoop env opts rst.map sts ⟨rst.rep, [], false, []⟩).running
          rst.paths fs
          (removeStatusLoop env opts rst.map sts ⟨rst.rep, [], false, []⟩).rep).2,
        e?,
        (removeDeleteLoop
          (removeStatusLoop env opts rst.map sts ⟨rst.rep, [], false, []⟩).running
          rst.paths fs
          (removeStatusLoop env opts rst.map sts ⟨rst.rep, [], false, []⟩).rep).1,
        (removeStatusLoop env opts rst.map sts ⟨rst.rep, [], false, []⟩).stopAttempts⟩ := by
  simp only [removeAfterResolve]
  split
  · split
    · exact ⟨_, rfl⟩
    · exact ⟨_, rfl⟩
  · exact ⟨_, rfl⟩

/-- Claim C6: a quadlet whose derived service is reported loaded and
active, with force unset, is recorded in the report's errors map with
the running error, excluded from deletion (it never enters `Removed`),
and its backing file is untouched.  The uniqueness hypothesis `hu` says
no other requested quadlet derives the same service name; `hbase` states
that the resolved path's base name is the requested name (true whenever
the requested name is a plain file name). -/
theorem c6_running_quadlet_noforce_kept (env : Env) (opts : QuadletRemoveOptions)
    (quadlets : List String) (fs : Fs) (n p s : String)
    (hforce : opts.Force = false) (hall : opts.All = false)
    (hconn : env.connect = .ok ())
    (hn : n ∈ quadlets)
    (hres : getQuadletByName env.unitDirs fs n = .ok p)
    (hsvc : getQuadletServiceName env p = .ok s)
    (hbase : goBase p = n)
    (hu : ∀ m ∈ quadlets, ∀ pm, getQuadletByName env.unitDirs fs m = .ok pm →
      getQuadletServiceName env pm = .ok s → m = n)
    (hlu : ∀ ns, ∃ sts, env.listUnits ns = .ok sts ∧
      (s ∈ ns → ∃ u ∈ sts, u.Name = s ∧ u.LoadState = "loaded" ∧ u.ActiveState = "active")) :
    ∃ rep, (quadletRemove env opts quadlets fs).report = some rep ∧
      mapFind rep.Errors n = some (runningMsg n) ∧
      n ∉ rep.Removed ∧
      mapFind (quadletRemove env opts quadlets fs).fs p = mapFind fs p := by
  have hne : quadlets.isEmpty = false := by
    cases quadlets with
    | nil => exact absurd hn (List.not_mem_nil n)
    | cons a l => rfl
  have hsmem : s ∈ (removeResolveLoop env opts fs quadlets ⟨[], [], [], ⟨[], []⟩⟩).names :=
    resolveLoop_names_mem env opts fs n p s hres hsvc quadlets _ hn
  have hnames :
      (removeResolveLoop env opts fs quadlets ⟨[], [], [], ⟨[], []⟩⟩).names.isEmpty = false := by
    cases hh : (removeResolveLoop env opts fs quadlets ⟨[], [], [], ⟨[], []⟩⟩).names with
    | nil => rw [hh] at hsmem; exact absurd hsmem (List.not_mem_nil s)
    | cons a l => rfl
  obtain ⟨sts, hlu1, hwit⟩ :=
    hlu (removeResolveLoop env opts fs quadlets ⟨[], [], [], ⟨[], []⟩⟩).names
  have hrunq := quadletRemove_run env opts quadlets fs sts hne hconn hall hnames hlu1
  rw [hrunq]
  obtain ⟨e?, hshape⟩ := removeAfterResolve_cases env opts fs
    (removeResolveLoop env opts fs quadlets ⟨[], [], [], ⟨[], []⟩⟩) sts
  rw [hshape]
  have herrnone :
      mapFind (removeResolveLoop env opts fs quadlets ⟨[], [], [], ⟨[], []⟩⟩).rep.Errors n
        = none :=
    resolveLoop_errors_none env opts fs n p s hres hsvc quadlets _ rfl
  have hremnot :
      n ∉ (removeResolveLoop env opts fs quadlets ⟨[], [], [], ⟨[], []⟩⟩).rep.Removed :=
    resolveLoop_removed_not env opts fs n p hres quadlets _ (List.not_mem_nil n)
  have hmapval :
      mapFind (removeResolveLoop env opts fs quadlets ⟨[], [], [], ⟨[], []⟩⟩).map s
        = some n :=
    resolveLoop_map_val env opts fs n p s hres hsvc quadlets _ hu (Or.inl rfl) (Or.inl hn)
  have hw := statusLoop_noforce_written env opts
    (removeResolveLoop env opts fs quadlets ⟨[], [], [], ⟨[], []⟩⟩).map s n hforce
    (by rw [mapFindD, hmapval]; rfl) sts
    ⟨(removeResolveLoop env opts fs quadlets ⟨[], [], [], ⟨[], []⟩⟩).rep, [], false, []⟩
    (Or.inl herrnone) (Or.inl (hwit hsmem))
  have hremeq := statusLoop_removed_eq env opts
    (removeResolveLoop env opts fs quadlets ⟨[], [], [], ⟨[], []⟩⟩).map sts
    ⟨(removeResolveLoop env opts fs quadlets ⟨[], [], [], ⟨[], []⟩⟩).rep, [], false, []⟩
  refine ⟨_, rfl, ?_, ?_, ?_⟩
  · rw [deleteLoop_errors_eq]
    exact hw.1
  · refine deleteLoop_removed_not _ n hw.2 _ fs _ ?_
    rw [hremeq]
    exact hremnot
  · exact deleteLoop_excluded_preserved _ p (hbase ▸ hw.2) _ fs _

/-- Environment for the C6 witness: `foo.container` derives service
`foo.service`, which systemd reports loaded and active. -/
def envC6 : Env := { defaultEnv with
  parseUnitFile := fun p =>
    if p = "/etc/containers/systemd/foo.container" then .ok "unitF" else .error "bad ini"
  getUnitServiceName := fun u => if u = "unitF" then .ok "foo" else .error "no name"
  listUnits := fun _ => .ok [⟨"foo.service", "loaded", "active", "running"⟩] }

/-- One installed, running quadlet. -/
def fsC6 : Fs := [("/etc/containers/systemd/foo.container", FsEntry.file "F")]

/-- Witness for claim C6 at a concrete input. -/
theorem c6_witness :
    ∃ rep,
      (quadletRemove envC6 ⟨false, false, false, false⟩ ["foo.container"] fsC6).report =
        some rep ∧
      mapFind rep.Errors "foo.container" = some (runningMsg "foo.container") ∧
      "foo.container" ∉ rep.Removed ∧
      mapFind (quadletRemove envC6 ⟨false, false, false, false⟩ ["foo.container"] fsC6).fs
          "/etc/containers/systemd/foo.container" =
        mapFind fsC6 "/etc/containers/systemd/foo.container" := by
  refine c6_running_quadlet_noforce_kept envC6 ⟨false, false, false, false⟩ ["foo.container"]
    fsC6 "foo.container" "/etc/containers/systemd/foo.container" "foo.service"
    rfl rfl (by decide) (by simp) (by decide) (by decide) (by decide) ?_ ?_
  · intro m hm
    rw [List.mem_singleton] at hm
    intro pm _ _
    exact hm
  · intro ns
    refine ⟨[⟨"foo.service", "loaded", "active", "running"⟩], rfl, fun _ => ?_⟩
    exact ⟨⟨"foo.service", "loaded", "active", "running"⟩,
      List.mem_singleton.mpr rfl, rfl, rfl, rfl⟩

/-- Claim C7 (amended): a requested quadlet that resolves to a path but
whose service-name derivation fails is recorded in the report's errors
map with the parse error and no stop is ever attempted for it; however
its backing file IS deleted by the deletion step (the path was collected
before name derivation, line 470) and its name is also appended to
`Removed`. -/
theorem c7_parse_failed_quadlet_deleted (env : Env) (opts : QuadletRemoveOptions)
    (quadlets : List String) (fs : Fs) (n p : String) (em : GoError)
    (hall : opts.All = false)
    (hconn : env.connect = .ok ())
    (hn : n ∈ quadlets)
    (hres : getQuadletByName env.unitDirs fs n = .ok p)
    (hparse : getQuadletServiceName env p = .error em)
    (hbase : goBase p = n)
    (hlu : ∀ ns, ∃ sts, env.listUnits ns = .ok sts) :
    ∃ rep, (quadletRemove env opts quadlets fs).report = some rep ∧
      mapFind rep.Errors n = some em ∧
      n ∉ (quadletRemove env opts quadlets fs).stopAttempts ∧
      mapFind (quadletRemove env opts quadlets fs).fs p = none ∧
      n ∈ rep.Removed := by
  have hne : quadlets.isEmpty = false := by
    cases quadlets with
    | nil => exact absurd hn (List.not_mem_nil n)
    | cons a l => rfl
  set RST := removeResolveLoop env opts fs quadlets ⟨[], [], [], ⟨[], []⟩⟩ with hRST
  have herrval : mapFind RST.rep.Errors n = some em :=
    resolveLoop_errors_val env opts fs n p em hres hparse quadlets _ (Or.inl rfl) (Or.inl hn)
  have hpmem : p ∈ RST.paths :=
    resolveLoop_paths_mem env opts fs n p hres quadlets _ hn
  have hnoval : ∀ nm, mapFind RST.map nm ≠ some n :=
    resolveLoop_map_noval env opts fs n p em hres hparse quadlets _
      (fun nm h => Option.noConfusion h)
  have hne2 : n ≠ "" :=
    isExtSupported_ne_empty n (getQuadletByName_ext env.unitDirs fs n p hres)
  cases hni : RST.names.isEmpty with
  | true =>
    rw [quadletRemove_run_nonames env opts quadlets fs hne hconn hall hni]
    have hdel := deleteLoop_deletes [] p (hbase ▸ List.not_mem_nil n) RST.paths fs RST.rep hpmem
    refine ⟨(removeDeleteLoop [] RST.paths fs RST.rep).2, rfl, ?_, ?_, ?_, ?_⟩
    · rw [deleteLoop_errors_eq]
      exact herrval
    · exact List.not_mem_nil n
    · exact hdel.1
    · exact hbase ▸ hdel.2
  | false =>
    obtain ⟨sts, hlu1⟩ := hlu RST.names
    rw [quadletRemove_run env opts quadlets fs sts hne hconn hall hni hlu1]
    obtain ⟨e?, hshape⟩ := removeAfterResolve_cases env opts fs RST sts
    rw [hshape]
    set SST := removeStatusLoop env opts RST.map sts ⟨RST.rep, [], false, []⟩ with hSST
    have hunt := statusLoop_untouched env opts RST.map n hnoval hne2 sts
      ⟨RST.rep, [], false, []⟩
    rw [← hSST] at hunt
    have hnrun : goBase p ∉ SST.running := by
      rw [hbase]
      intro hmem
      exact absurd (hunt.2.1 hmem) (List.not_mem_nil n)
    have hdel := deleteLoop_deletes SST.running p hnrun RST.paths fs SST.rep hpmem
    refine ⟨(removeDeleteLoop SST.running RST.paths fs SST.rep).2, rfl, ?_, ?_, ?_, ?_⟩
    · rw [deleteLoop_errors_eq, hunt.1]
      exact herrval
    · intro hmem
      exact absurd (hunt.2.2 hmem) (List.not_mem_nil n)
    · exact hdel.1
    · exact hbase ▸ hdel.2

/-- Environment for the C7 counterexample/witness: no unit file
parses. -/
def envC7 : Env := { defaultEnv with
  parseUnitFile := fun _ => .error "bad ini" }

/-- One installed quadlet whose unit file is garbage. -/
def fsC7 : Fs := [("/etc/containers/systemd/foo.container", FsEntry.file "garbage")]

/-- Claim C7, counterexample: the parse-failed quadlet is recorded in
`Errors`, yet its backing file is deleted and it is also listed in
`Removed` — contradicting "its backing file is not deleted by this
call". -/
theorem c7_counterexample_parse_failed_file_deleted :
    quadletRemove envC7 ⟨false, false, false, false⟩ ["foo.container"] fsC7 =
      ⟨some ⟨["foo.container"],
          [("foo.container",
            "parsing Quadlet file /etc/containers/systemd/foo.container: bad ini")]⟩,
        none, [], []⟩ ∧
    mapFind fsC7 "/etc/containers/systemd/foo.container" = some (FsEntry.file "garbage") :=
  ⟨by decide, by decide⟩

/-- Witness for claim C7 (amended) at a concrete input. -/
theorem c7_witness :
    ∃ rep,
      (quadletRemove envC7 ⟨false, false, false, false⟩ ["foo.container"] fsC7).report =
        some rep ∧
      mapFind rep.Errors "foo.container" =
        some "parsing Quadlet file /etc/containers/systemd/foo.container: bad ini" ∧
      "foo.container" ∉
        (quadletRemove envC7 ⟨false, false, false, false⟩ ["foo.container"] fsC7).stopAttempts ∧
      mapFind (quadletRemove envC7 ⟨false, false, false, false⟩ ["foo.container"] fsC7).fs
        "/etc/containers/systemd/foo.container" = none ∧
      "foo.container" ∈ rep.Removed := by
  refine c7_parse_failed_quadlet_deleted envC7 ⟨false, false, false, false⟩ ["foo.container"]
    fsC7 "foo.container" "/etc/containers/systemd/foo.container"
    "parsing Quadlet file /etc/containers/systemd/foo.container: bad ini"
    rfl (by decide) (by simp) (by decide) (by decide) (by decide) ?_
  intro ns
  exact ⟨[], rfl⟩

end Quadlet
